import Mathlib

/-!
Shallow embedding of the dRAG documentation-RAG system (TypeScript sources:
`src/services/crawler.ts`, `src/services/chunker.ts`, `src/services/vectorstore.ts`,
`src/tools/{crawl,search,delete}.ts`, `src/config.ts`), together with proofs
settling the frozen claims C1-C10 about it.

Modelling conventions:
* JavaScript strings are Lean `String`s; `charCodeAt` is modelled via UTF-16
  code units; ASCII-relevant string primitives (`toLowerCase`, `trim`,
  `startsWith`, `endsWith`, `split`, `includes`) are re-implemented over the
  underlying character lists so that concrete instances evaluate in the kernel.
* 32-bit integer coercion (`| 0`, `&`, `<<`) is modelled as `toInt32 : Int → Int`.
* WHATWG `new URL(...)` is modelled by `parseURL`, a simplified parser for
  `scheme://host[:port][/path][?query][#fragment]` shaped strings which, like
  the platform parser, lower-cases scheme and host, elides the scheme-default
  port, and fails (returns `none`) on malformed inputs.
* Unbounded `while` loops are modelled as fuel-indexed recursions; theorems
  either hold for every fuel or assume fuel large enough for the loop to run
  to completion (the source loops terminate for the same reason the fuel
  bounds are sufficient).
* Remote collaborators (HTTP, embedding backend, vector store client) are
  oracle parameters; chroma collections are lists of records scanned with
  `(l.drop offset).take limit` pagination, matching `collection.get({limit, offset})`.
-/

namespace DRag

/-! ## Configuration constants (`src/config.ts`) -/

def MAX_DEPTH_LIMIT : Nat := 5
def DEFAULT_MAX_PAGES : Nat := 100
def MAX_RESPONSE_SIZE_BYTES : Nat := 10 * 1024 * 1024
def BATCH_SIZE : Nat := 1000
def RRF_K : ℚ := 60
def MAX_TOP_K : Int := 100
def MAX_QUERY_LENGTH : Nat := 10000
def DEFAULT_CHUNK_SIZE : Nat := 500
def DEFAULT_CHUNK_OVERLAP : Nat := 100
def MIN_CHUNK_SIZE : Nat := 50

/-! ## JavaScript string primitives, kernel-evaluable -/

/-- ASCII `toLowerCase` on one character. -/
def charToLower (c : Char) : Char :=
  if 'A' ≤ c && c ≤ 'Z' then Char.ofNat (c.toNat + 32) else c

/-- Model of `s.toLowerCase()` (ASCII range; hostnames and keywords are ASCII). -/
def jsToLower (s : String) : String := String.mk (s.data.map charToLower)

/-- Model of `s.startsWith(pre)` -/
def strStartsWith (s pre : String) : Bool := pre.data.isPrefixOf s.data

/-- Model of `s.endsWith(suf)` -/
def strEndsWith (s suf : String) : Bool := suf.data.isSuffixOf s.data

/-- Model of `s.includes(pat)` -/
def strContainsSubstr (s pat : String) : Bool :=
  s.data.tails.any (fun t => pat.data.isPrefixOf t)

/-- Model of `s.trim()` -/
def jsTrim (s : String) : String :=
  String.mk (((s.data.dropWhile Char.isWhitespace).reverse.dropWhile Char.isWhitespace).reverse)

/-- Model of `s.slice(0, n)` -/
def strTake (s : String) (n : Nat) : String := String.mk (s.data.take n)

/-- Split a character list on every occurrence of the character `sep`
(JS `s.split(".")`). -/
def splitOnChar (sep : Char) : List Char → List (List Char)
  | [] => [[]]
  | c :: cs =>
    if c = sep then [] :: splitOnChar sep cs
    else
      match splitOnChar sep cs with
      | [] => [[c]]
      | g :: gs => (c :: g) :: gs

/-! ## URL model (WHATWG `new URL`, simplified) -/

structure ParsedURL where
  scheme : String
  host : String
  port : String
  hash : String
deriving Repr, DecidableEq

/-- Split a character list at the first occurrence of `sep` (nonempty);
returns the part before and the part after the separator. -/
def breakOnSeq (sep : List Char) : List Char → Option (List Char × List Char)
  | [] => none
  | c :: cs =>
    if sep.isPrefixOf (c :: cs) then some ([], (c :: cs).drop sep.length)
    else
      match breakOnSeq sep cs with
      | some (pre, post) => some (c :: pre, post)
      | none => none

def isSchemeChar (c : Char) : Bool :=
  c.isAlpha || c.isDigit || c == '+' || c == '-' || c == '.'

def digitsToNat (l : List Char) : Nat :=
  l.foldl (fun acc c => 10 * acc + (c.toNat - 48)) 0

/-- Canonicalize an explicit port: empty (→ null port), all digits and in range,
with the scheme's default port elided, as the platform URL parser does. -/
def normalizePort (scheme : String) (portCs : List Char) : Option String :=
  if portCs.isEmpty then some ""
  else if portCs.all Char.isDigit then
    let p := digitsToNat portCs
    if p > 65535 then none
    else if (scheme = "http" ∧ p = 80) ∨ (scheme = "https" ∧ p = 443) then some ""
    else some (toString p)
  else none

/-- Parse `authority` (no slashes) into hostname and canonical port. -/
def parseAuthority (scheme : String) (authority : List Char) : Option (String × String) :=
  match authority with
  | [] => none
  | '[' :: rest =>
    match breakOnSeq [']'] rest with
    | none => none
    | some (inside, after) =>
      let host := String.mk ('[' :: inside ++ [']'])
      match after with
      | [] => (normalizePort scheme []).map (fun p => (host, p))
      | ':' :: portCs => (normalizePort scheme portCs).map (fun p => (host, p))
      | _ => none
  | _ =>
    match breakOnSeq [':'] authority with
    | none => (normalizePort scheme []).map (fun p => (String.mk authority, p))
    | some (hostCs, portCs) =>
      if hostCs.isEmpty then none
      else (normalizePort scheme portCs).map (fun p => (String.mk hostCs, p))

/-- Model of `new URL(s)`: `none` models a thrown `TypeError`. -/
def parseURL (s : String) : Option ParsedURL :=
  match breakOnSeq ['/', '/'] s.data with
  | none => none
  | some (schemePart, rest) =>
    match schemePart.reverse with
    | ':' :: schemeRev =>
      match schemeRev.reverse with
      | [] => none
      | c :: cs =>
        if c.isAlpha && cs.all isSchemeChar then
          let scheme := jsToLower (String.mk (c :: cs))
          let authority := rest.takeWhile (fun ch => !(ch == '/' || ch == '?' || ch == '#'))
          let afterAuth := rest.dropWhile (fun ch => !(ch == '/' || ch == '?' || ch == '#'))
          let hash :=
            match breakOnSeq ['#'] afterAuth with
            | some (_, frag) => if frag.isEmpty then "" else String.mk ('#' :: frag)
            | none => ""
          match parseAuthority scheme authority with
          | none => none
          | some (host, port) =>
            some { scheme := scheme, host := jsToLower host, port := port, hash := hash }
        else none
    | _ => none

/-! ## URL Guard (`isBlockedUrl`, crawler.ts) -/

def BLOCKED_HOSTNAMES : List String :=
  ["localhost", "127.0.0.1", "0.0.0.0", "[::1]", "metadata.google.internal", "169.254.169.254"]

def allDigits (s : List Char) : Bool := !s.isEmpty && s.all Char.isDigit

/-- Model of `/^10\.\d+\.\d+\.\d+$/` -/
def pat10 (h : String) : Bool :=
  match splitOnChar '.' h.data with
  | [a, b, c, d] => a == ['1', '0'] && allDigits b && allDigits c && allDigits d
  | _ => false

/-- Model of `(1[6-9]|2\d|3[0-1])` -/
def isSecondOctet172 (s : List Char) : Bool :=
  match s with
  | ['1', d] => '6' ≤ d && d ≤ '9'
  | ['2', d] => d.isDigit
  | ['3', d] => d == '0' || d == '1'
  | _ => false

/-- Model of `/^172\.(1[6-9]|2\d|3[0-1])\.\d+\.\d+$/` -/
def pat172 (h : String) : Bool :=
  match splitOnChar '.' h.data with
  | [a, b, c, d] => a == ['1', '7', '2'] && isSecondOctet172 b && allDigits c && allDigits d
  | _ => false

/-- Model of `/^192\.168\.\d+\.\d+$/` -/
def pat192168 (h : String) : Bool :=
  match splitOnChar '.' h.data with
  | [a, b, c, d] => a == ['1', '9', '2'] && b == ['1', '6', '8'] && allDigits c && allDigits d
  | _ => false

/-- Model of `/\.local$/` -/
def patDotLocal (h : String) : Bool := strEndsWith h ".local"

/-- Model of `/\.internal$/` -/
def patDotInternal (h : String) : Bool := strEndsWith h ".internal"

def BLOCKED_HOSTNAME_PATTERNS : List (String → Bool) :=
  [pat10, pat172, pat192168, patDotLocal, patDotInternal]

/-- Body of `isBlockedUrl` after a successful `new URL(url)`. -/
def isBlockedParsed (parsed : ParsedURL) : Bool :=
  let hostname := jsToLower parsed.host
  if BLOCKED_HOSTNAMES.contains hostname then true
  else if BLOCKED_HOSTNAME_PATTERNS.any (fun pat => pat hostname) then true
  else if (parsed.port != "") && !(["80", "443", ""].contains parsed.port) then true
  else false

/-- Model of `isBlockedUrl` (crawler.ts): blocklisted hostname, private-range pattern,
non-standard explicit port, or unparseable URL (fail closed). -/
def isBlockedUrl (url : String) : Bool :=
  match parseURL url with
  | none => true
  | some parsed => isBlockedParsed parsed

/-! ### C1 -/

/-- Claim C1. For every URL whose (parsed, lower-cased) hostname is one of
`localhost`, `127.0.0.1`, `10.1.2.3`, `172.20.0.5`, `192.168.1.1`,
`169.254.169.254`, `metadata.google.internal`, `isBlockedUrl` returns `true`;
`https://example.com` (port unspecified or the default 443) is not blocked;
`https://example.com:8443` is blocked; every string failing to parse as a
URL is blocked (fail closed). -/
theorem isBlockedUrl_spec :
    (∀ s u, parseURL s = some u →
      jsToLower u.host ∈ ["localhost", "127.0.0.1", "10.1.2.3", "172.20.0.5",
        "192.168.1.1", "169.254.169.254", "metadata.google.internal"] →
      isBlockedUrl s = true)
    ∧ isBlockedUrl "https://example.com" = false
    ∧ isBlockedUrl "https://example.com:443" = false
    ∧ isBlockedUrl "https://example.com:8443" = true
    ∧ (∀ s, parseURL s = none → isBlockedUrl s = true) := by
  refine ⟨?_, by decide, by decide, by decide, ?_⟩
  · intro s u hparse hmem
    have hbody : isBlockedUrl s = isBlockedParsed u := by
      simp [isBlockedUrl, hparse]
    rw [hbody]
    have hb : (BLOCKED_HOSTNAMES.contains (jsToLower u.host)
        || BLOCKED_HOSTNAME_PATTERNS.any (fun pat => pat (jsToLower u.host))) = true := by
      simp only [List.mem_cons, List.not_mem_nil, or_false] at hmem
      rcases hmem with h | h | h | h | h | h | h <;> (rw [h]; decide)
    unfold isBlockedParsed
    rw [Bool.or_eq_true] at hb
    rcases hb with h | h
    · simp
      exact Or.inl (by simpa using h)
    · simp
      exact Or.inr (Or.inl (by simpa using h))
  · intro s hparse
    unfold isBlockedUrl
    rw [hparse]

/-- Witness for C1: instantiates the universally quantified parts at
`http://localhost` (hostname branch) and `http:/x` (parse-failure branch). -/
theorem isBlockedUrl_spec_witness :
    isBlockedUrl "http://localhost" = true ∧ isBlockedUrl "http:/x" = true := by
  constructor
  · exact isBlockedUrl_spec.1 "http://localhost"
      ⟨"http", "localhost", "", ""⟩ (by decide) (by decide)
  · exact isBlockedUrl_spec.2.2.2.2 "http:/x" (by decide)

/-! ## More JS primitives: whitespace splitting, stable sort -/

mutual

/-- Model of `s.split(/\s+/)`: splitting state inside a segment (`acc` is the segment so
far, reversed). A maximal whitespace run is one separator; a leading or
trailing run produces an empty segment, as in JavaScript. -/
def splitWSCore : List Char → List Char → List String
  | [], acc => [String.mk acc.reverse]
  | c :: cs, acc =>
    if c.isWhitespace then String.mk acc.reverse :: splitWSSkip cs
    else splitWSCore cs (c :: acc)

/-- Model of `s.split(/\s+/)`: splitting state inside a whitespace run. -/
def splitWSSkip : List Char → List String
  | [] => [""]
  | c :: cs => if c.isWhitespace then splitWSSkip cs else splitWSCore cs [c]

end

/-- Model of `s.split(/\s+/)` -/
def jsSplitWS (s : String) : List String := splitWSCore s.data []

/-- Model of `s.split(/\s+/).length`, the word-count measure used throughout the chunker. -/
def jsWordCount (s : String) : Nat := (jsSplitWS s).length

/-- Stable insertion of `x` after every `y` with `le y x` already in place. -/
def insertStable (le : α → α → Bool) (x : α) : List α → List α
  | [] => [x]
  | y :: ys => if le y x then y :: insertStable le x ys else x :: y :: ys

/-- JS `Array.prototype.sort(cmp)` for a consistent comparator: stable,
`le y x` meaning `cmp(y,x) <= 0` (y may stay before x). -/
def jsSortStable (le : α → α → Bool) (l : List α) : List α :=
  l.foldl (fun acc x => insertStable le x acc) []

/-- Model of `arr.join(sep)` -/
def joinSep (sep : String) : List String → String
  | [] => ""
  | [w] => w
  | w :: ws => w ++ sep ++ joinSep sep ws

/-- Split on every (leftmost, non-overlapping) occurrence of `sep`,
fuel-bounded (`fuel ≥ length + 1` always suffices); JS `s.split("\n\n")` etc. -/
def splitSeqAux (sep : List Char) : Nat → List Char → List (List Char)
  | 0, l => [l]
  | fuel + 1, l =>
    match breakOnSeq sep l with
    | none => [l]
    | some (pre, post) => pre :: splitSeqAux sep fuel post

/-! ## Chunker (`src/services/chunker.ts`) -/

structure CrawledPage where
  url : String
  title : String
  content : String
  links : List String
deriving Repr, DecidableEq

structure ChunkMetadata where
  url : String
  title : String
  chunkIndex : Nat
  totalChunks : Nat
  context : String
  keywords : List String
deriving Repr, DecidableEq

structure Chunk where
  id : String
  text : String
  metadata : ChunkMetadata
deriving Repr, DecidableEq

/-- Model of `Partial<ChunkOptions>` -/
structure ChunkOptionsP where
  chunkSize : Option Nat := none
  chunkOverlap : Option Nat := none
  semantic : Option Bool := none
deriving Repr, DecidableEq

/-- Lookahead `(?=#{1,3}\s)`: one to three `#` followed by whitespace
(with regex backtracking semantics: a fourth `#` defeats all three options). -/
def isHeaderAhead (l : List Char) : Bool :=
  match l with
  | '#' :: t1 =>
    (match t1 with
     | c :: _ => c.isWhitespace
     | [] => false) ||
    (match t1 with
     | '#' :: t2 =>
       (match t2 with
        | c :: _ => c.isWhitespace
        | [] => false) ||
       (match t2 with
        | '#' :: (c :: _) => c.isWhitespace
        | _ => false)
     | _ => false)
  | _ => false

mutual

/-- Model of `text.split(/\n\n+|\n(?=#{1,3}\s)/)`: in-segment state (`acc` reversed). -/
def splitParaCore : List Char → List Char → List String
  | [], acc => [String.mk acc.reverse]
  | '\n' :: '\n' :: rest, acc => String.mk acc.reverse :: splitParaSkipNL rest
  | '\n' :: cs, acc =>
    if isHeaderAhead cs then String.mk acc.reverse :: splitParaCore cs []
    else splitParaCore cs ('\n' :: acc)
  | c :: cs, acc => splitParaCore cs (c :: acc)

/-- Model of `text.split(/\n\n+|\n(?=#{1,3}\s)/)`: consuming the rest of a `\n`-run
(the `\n\n+` alternative is greedy). -/
def splitParaSkipNL : List Char → List String
  | [] => [""]
  | c :: cs =>
    if c = '\n' then splitParaSkipNL cs
    else splitParaCore cs [c]

end

/-- Paragraph splitting used by `semanticChunkText`. -/
def splitParagraphs (s : String) : List String := splitParaCore s.data []

/-- The overlap carry-forward loop of `semanticChunkText`: walk the current
chunk's paragraphs from the end (`rev` is the reversed current chunk),
unshifting while the accumulated word count is below the overlap budget. -/
def collectOverlap (chunkOverlap : Nat) : List String → List String → Nat → (List String × Nat)
  | [], acc, size => (acc, size)
  | p :: rest, acc, size =>
    if size < chunkOverlap then collectOverlap chunkOverlap rest (p :: acc) (size + jsWordCount p)
    else (acc, size)

/-- One iteration of the `slidingWindowChunk` while-loop, fuel-bounded.
The source loop terminates (and the fuel is irrelevant) whenever
`chunkSize > chunkOverlap`, which the callers' defaults satisfy. -/
def slideLoop (words : List String) (chunkSize chunkOverlap : Nat) :
    Nat → Nat → List String → List String
  | 0, _, chunks => chunks
  | fuel + 1, start, chunks =>
    if start < words.length then
      let endIdx := min (start + chunkSize) words.length
      let chunk := joinSep " " ((words.drop start).take (endIdx - start))
      let chunks' :=
        if jsTrim chunk ≠ "" ∧ MIN_CHUNK_SIZE ≤ jsWordCount chunk then chunks ++ [chunk]
        else chunks
      let start' := start + (chunkSize - chunkOverlap)
      if words.length - chunkOverlap ≤ start' ∧ 0 < chunks'.length then chunks'
      else slideLoop words chunkSize chunkOverlap fuel start' chunks'
    else chunks

/-- Model of `slidingWindowChunk` (chunker.ts). -/
def slidingWindowChunk (text : String) (chunkSize chunkOverlap : Nat) : List String :=
  let words := jsSplitWS text
  if words.length ≤ chunkSize then [text]
  else slideLoop words chunkSize chunkOverlap (words.length + 1) 0 []

structure SemState where
  chunks : List String
  currentChunk : List String
  currentSize : Nat

/-- Loop body of `semanticChunkText` for one paragraph. -/
def semanticStep (maxChunkSize chunkOverlap : Nat) (st : SemState) (paragraph : String) :
    SemState :=
  let paragraphWords := jsWordCount paragraph
  if paragraphWords > maxChunkSize then
    let st1 :=
      if 0 < st.currentChunk.length then
        { chunks := st.chunks ++ [joinSep "\n\n" st.currentChunk],
          currentChunk := [], currentSize := 0 }
      else st
    { st1 with
      chunks := st1.chunks ++ slidingWindowChunk paragraph maxChunkSize chunkOverlap }
  else
    let st1 :=
      if maxChunkSize < st.currentSize + paragraphWords ∧ 0 < st.currentChunk.length then
        let ov := collectOverlap chunkOverlap st.currentChunk.reverse [] 0
        { chunks := st.chunks ++ [joinSep "\n\n" st.currentChunk],
          currentChunk := ov.1, currentSize := ov.2 }
      else st
    { st1 with
      currentChunk := st1.currentChunk ++ [paragraph],
      currentSize := st1.currentSize + paragraphWords }

/-- Model of `semanticChunkText` (chunker.ts). -/
def semanticChunkText (text : String) (maxChunkSize chunkOverlap : Nat) : List String :=
  let paragraphs := splitParagraphs text
  let st := paragraphs.foldl (semanticStep maxChunkSize chunkOverlap) ⟨[], [], 0⟩
  let chunks :=
    if 0 < st.currentChunk.length ∧ MIN_CHUNK_SIZE ≤ st.currentSize then
      st.chunks ++ [joinSep "\n\n" st.currentChunk]
    else st.chunks
  chunks.filter (fun c => MIN_CHUNK_SIZE ≤ jsWordCount c)

def STOP_WORDS : List String :=
  ["the", "a", "an", "and", "or", "but", "in", "on", "at", "to", "for", "of", "with",
   "by", "from", "is", "are", "was", "were", "be", "been", "being", "have", "has",
   "had", "do", "does", "did", "will", "would", "could", "should", "may", "might",
   "must", "shall", "can", "this", "that", "these", "those", "it", "its", "as",
   "if", "then", "else"]

/-- Regex word characters `[a-z0-9_]` (the text is lower-cased first). -/
def isWordChar (c : Char) : Bool :=
  ('a' ≤ c && c ≤ 'z') || ('0' ≤ c && c ≤ '9') || c == '_'

mutual

/-- Maximal word-character runs: in-run state (`acc` reversed). -/
def wordRunsIn : List Char → List Char → List (List Char)
  | [], acc => [acc.reverse]
  | c :: cs, acc =>
    if isWordChar c then wordRunsIn cs (c :: acc)
    else acc.reverse :: wordRunsOut cs

/-- Maximal word-character runs: between-runs state. -/
def wordRunsOut : List Char → List (List Char)
  | [] => []
  | c :: cs => if isWordChar c then wordRunsIn cs [c] else wordRunsOut cs

end

/-- Model of `text.toLowerCase().match(/\b[a-z]{3,}\b/g) ?? []`: a match is a maximal
word-character run that is entirely alphabetic and of length ≥ 3 (the `\b`
boundaries exclude runs touching digits or underscores). -/
def tokenizeWords (s : String) : List String :=
  ((wordRunsOut (jsToLower s).data).filter
    (fun r => decide (3 ≤ r.length) && r.all (fun c => 'a' ≤ c && c ≤ 'z'))).map String.mk

/-- Model of `wordCount.set(word, (wordCount.get(word) ?? 0) + 1)` on an
insertion-ordered association list (JS `Map` semantics). -/
def incrCount : List (String × Nat) → String → List (String × Nat)
  | [], w => [(w, 1)]
  | e :: m, w => if e.1 = w then (e.1, e.2 + 1) :: m else e :: incrCount m w

/-- The word-frequency loop of `extractKeywords` (stop words skipped). -/
def countWords : List String → List (String × Nat) → List (String × Nat)
  | [], m => m
  | w :: ws, m =>
    if STOP_WORDS.contains w then countWords ws m
    else countWords ws (incrCount m w)

/-- Model of `extractKeywords` (chunker.ts): top 20 non-stopword tokens by frequency,
ties broken by first appearance (stable sort over Map insertion order). -/
def extractKeywords (text : String) : List String :=
  let words := tokenizeWords text
  let wordCount := countWords words []
  ((jsSortStable (fun a b => decide (b.2 ≤ a.2)) wordCount).take 20).map (·.1)

/-! ### Chunk ids: `simpleHash` / `generateChunkId` -/

/-- JS `ToInt32`: wrap into `[-2^31, 2^31)`. -/
def toInt32 (n : Int) : Int :=
  let m := n % 4294967296
  if m < 2147483648 then m else m - 4294967296

/-- UTF-16 code units of one character (`charCodeAt` iterates these). -/
def utf16Units (c : Char) : List Nat :=
  if c.toNat < 65536 then [c.toNat]
  else [55296 + (c.toNat - 65536) / 1024, 56320 + (c.toNat - 65536) % 1024]

/-- One step of `simpleHash`: `hash = (hash << 5) - hash + char; hash = hash & hash`. -/
def simpleHashStep (h : Int) (code : Nat) : Int :=
  toInt32 (toInt32 (h * 32) - h + code)

def base36digit (n : Nat) : Char :=
  if n < 10 then Char.ofNat (48 + n) else Char.ofNat (87 + n)

/-- Model of `Number.prototype.toString(36)` digits, fuel-bounded (`fuel ≥ n+1` suffices). -/
def natToBase36Aux : Nat → Nat → List Char → List Char
  | 0, _, acc => acc
  | fuel + 1, n, acc =>
    let d := base36digit (n % 36)
    let q := n / 36
    if q = 0 then d :: acc else natToBase36Aux fuel q (d :: acc)

/-- Model of `Math.abs(hash).toString(36)` for a natural number. -/
def natToBase36 (n : Nat) : String := String.mk (natToBase36Aux (n + 1) n [])

/-- Model of `simpleHash` (chunker.ts): 31-based rolling hash over UTF-16 code units,
coerced to 32-bit at every step, absolute value rendered in base 36. -/
def simpleHash (str : String) : String :=
  natToBase36 (((str.data.map utf16Units).flatten.foldl simpleHashStep 0).natAbs)

/-- Model of `generateChunkId` (chunker.ts). -/
def generateChunkId (url : String) (index : Nat) : String :=
  simpleHash url ++ "-" ++ toString index

/-! ### `chunkPages` -/

/-- Model of `content.split(/\n\n/)[0]?.slice(0, 200) ?? ""` wrapped in the context string. -/
def generateDocumentContext (page : CrawledPage) : String :=
  let firstParagraph :=
    strTake (String.mk (((splitSeqAux ['\n', '\n'] (page.content.length + 1)
      page.content.data).headD []))) 200
  "Document: \"" ++ page.title ++ "\" from " ++ page.url ++ ". " ++ firstParagraph ++ "..."

/-- The inner `for (let i = 0; ...)` of `chunkPages`, building chunk records. -/
def buildChunks (pageUrl pageTitle documentContext : String) (totalChunks : Nat) :
    Nat → List String → List Chunk
  | _, [] => []
  | i, t :: ts =>
    { id := generateChunkId pageUrl i, text := t,
      metadata := { url := pageUrl, title := pageTitle, chunkIndex := i,
                    totalChunks := totalChunks, context := documentContext,
                    keywords := extractKeywords t } }
      :: buildChunks pageUrl pageTitle documentContext totalChunks (i + 1) ts

/-- Per-page part of the `chunkPages` loop body. -/
def perPageChunks (chunkSize chunkOverlap : Nat) (useSemantic : Bool)
    (page : CrawledPage) : List Chunk :=
  let documentContext := generateDocumentContext page
  let pageChunks :=
    if useSemantic then semanticChunkText page.content chunkSize chunkOverlap
    else slidingWindowChunk page.content chunkSize chunkOverlap
  buildChunks page.url page.title documentContext pageChunks.length 0 pageChunks

/-- Model of `chunkPages` (chunker.ts). -/
def chunkPages (pages : List CrawledPage) (options : ChunkOptionsP) : List Chunk :=
  let chunkSize := options.chunkSize.getD DEFAULT_CHUNK_SIZE
  let chunkOverlap := options.chunkOverlap.getD DEFAULT_CHUNK_OVERLAP
  let useSemantic := options.semantic.getD true
  (pages.map (perPageChunks chunkSize chunkOverlap useSemantic)).flatten

/-! ### C6 -/

theorem buildChunks_mem_id (u t ctx : String) (total : Nat) :
    ∀ (i : Nat) (ts : List String) (c : Chunk), c ∈ buildChunks u t ctx total i ts →
      c.id = simpleHash c.metadata.url ++ "-" ++ toString c.metadata.chunkIndex := by
  intro i ts
  induction ts generalizing i with
  | nil => intro c hc; simp [buildChunks] at hc
  | cons x xs ih =>
    intro c hc
    rw [buildChunks, List.mem_cons] at hc
    rcases hc with rfl | hc
    · rfl
    · exact ih (i + 1) c hc

/-- Claim C6. `chunkPages` is deterministic in the pages' `(url, title, content)`
projection and the options: equal projections give chunk lists with identical
ids and texts; and every produced chunk's id is the stable `simpleHash` of its
page URL joined with `"-"` and the chunk's ordinal index, so re-splitting an
unchanged page reproduces the same ids. -/
theorem chunkPages_deterministic :
    (∀ (pages1 pages2 : List CrawledPage) (options : ChunkOptionsP),
      pages1.map (fun p => (p.url, p.title, p.content)) =
        pages2.map (fun p => (p.url, p.title, p.content)) →
      (chunkPages pages1 options).map (fun c => (c.id, c.text)) =
        (chunkPages pages2 options).map (fun c => (c.id, c.text)))
    ∧ (∀ pages options c, c ∈ chunkPages pages options →
        c.id = simpleHash c.metadata.url ++ "-" ++ toString c.metadata.chunkIndex) := by
  constructor
  · intro ps1 ps2 o h
    suffices hs : chunkPages ps1 o = chunkPages ps2 o by rw [hs]
    simp only [chunkPages]
    congr 1
    induction ps1 generalizing ps2 with
    | nil => cases ps2 with
      | nil => rfl
      | cons q qs => simp at h
    | cons p ps ih =>
      cases ps2 with
      | nil => simp at h
      | cons q qs =>
        simp only [List.map_cons, List.cons.injEq, Prod.mk.injEq] at h
        obtain ⟨⟨hu, ht, hc⟩, h2⟩ := h
        simp only [List.map_cons, List.cons.injEq]
        refine ⟨?_, ih qs h2⟩
        cases p with
        | mk u1 t1 c1 l1 =>
          cases q with
          | mk u2 t2 c2 l2 =>
            obtain rfl : u1 = u2 := hu
            obtain rfl : t1 = t2 := ht
            obtain rfl : c1 = c2 := hc
            rfl
  · intro pages o c hc
    simp only [chunkPages, List.mem_flatten, List.mem_map] at hc
    obtain ⟨l, ⟨p, _, rfl⟩, hcl⟩ := hc
    exact buildChunks_mem_id _ _ _ _ 0 _ c hcl

def wContent : String := joinSep " " (List.replicate 60 "w")

def wPage : CrawledPage := ⟨"http://t.example/p", "T", wContent, []⟩

def wChunk : Chunk :=
  { id := generateChunkId wPage.url 0, text := wContent,
    metadata := { url := wPage.url, title := wPage.title, chunkIndex := 0,
                  totalChunks := 1, context := generateDocumentContext wPage,
                  keywords := extractKeywords wContent } }

set_option maxRecDepth 100000 in
/-- Witness for C6 at a concrete one-page input with default options. -/
theorem chunkPages_deterministic_witness :
    ((chunkPages [wPage] {}).map (fun c => (c.id, c.text)) =
      (chunkPages [wPage] {}).map (fun c => (c.id, c.text)))
    ∧ wChunk.id = simpleHash wChunk.metadata.url ++ "-" ++ toString wChunk.metadata.chunkIndex :=
  ⟨chunkPages_deterministic.1 [wPage] [wPage] {} rfl,
   chunkPages_deterministic.2 [wPage] {} wChunk (by decide)⟩

/-! ### C10 -/

set_option maxRecDepth 100000 in
/-- Claim C10. Chunk identifiers are not injective in the page URL: the URLs
`http://Aa` and `http://BB` differ but share every chunk id, because the
31-based rolling `simpleHash` collides on them (`31*65+97 = 31*66+66`), so
chunks of one page can silently overwrite chunks of another. -/
theorem generateChunkId_not_injective :
    ∃ u1 u2 : String, u1 ≠ u2 ∧ ∀ i : Nat, generateChunkId u1 i = generateChunkId u2 i := by
  refine ⟨"http://Aa", "http://BB", by decide, ?_⟩
  intro i
  have h : simpleHash "http://Aa" = simpleHash "http://BB" := by decide
  simp only [generateChunkId, h]

/-! ## Reciprocal Rank Fusion (`reciprocalRankFusion`, vectorstore.ts)

Scores are modelled as exact rationals (the algorithm's arithmetic is the
sum of reciprocals `1/(k+i+1)`). -/

structure SearchResult where
  text : String
  url : String
  title : String
  score : ℚ
deriving Repr, DecidableEq

/-- The dedup key `` `${result.url}:${result.text.slice(0, 100)}` ``. -/
def rrfKey (r : SearchResult) : String := r.url ++ ":" ++ strTake r.text 100

/-- Insertion-ordered score map, JS `Map<string, {result, score}>`. -/
abbrev RRFMap := List (String × SearchResult × ℚ)

/-- Model of `Map` update for one list entry: `existing.score += rrfScore` in place if
the key is present, else append `{result, score}`. -/
def bump : RRFMap → String → SearchResult → ℚ → RRFMap
  | [], key, r, s => [(key, r, s)]
  | e :: m, key, r, s =>
    if e.1 = key then (e.1, e.2.1, e.2.2 + s) :: m
    else e :: bump m key r s

/-- The `results.forEach((result, i) => ...)` score pass: rank `i` contributes
`1/(k+i+1)` to the key of the item at that rank. -/
def addScores (k : ℚ) : Nat → List SearchResult → RRFMap → RRFMap
  | _, [], m => m
  | i, r :: rs, m => addScores k (i + 1) rs (bump m (rrfKey r) r (1 / (k + i + 1)))

/-- Accumulated score map after both passes of `reciprocalRankFusion`. -/
def rrfMap (results1 results2 : List SearchResult) (k : ℚ) : RRFMap :=
  addScores k 0 results2 (addScores k 0 results1 [])

/-- Model of `reciprocalRankFusion` (vectorstore.ts): both score passes, then stable
sort by fused score descending, truncate to `topK`, re-attaching fused scores. -/
def reciprocalRankFusion (results1 results2 : List SearchResult) (topK : Nat)
    (k : ℚ := RRF_K) : List SearchResult :=
  ((jsSortStable (fun a b => decide (b.2.2 ≤ a.2.2)) (rrfMap results1 results2 k)).take
    topK).map (fun e => { e.2.1 with score := e.2.2 })

/-- Accumulated score of a key in the map (0 when absent). -/
def getScore : RRFMap → String → ℚ
  | [], _ => 0
  | e :: m, K => if e.1 = K then e.2.2 else getScore m K

/-- The per-rank contributions of one ranked list to a key, starting at rank `i`:
`Σ { 1/(k+j+1) | j ≥ i, the item at rank j has dedup key K }`. -/
def rrfContrib (k : ℚ) (K : String) : Nat → List SearchResult → ℚ
  | _, [] => 0
  | i, r :: rs => (if rrfKey r = K then 1 / (k + i + 1) else 0) + rrfContrib k K (i + 1) rs

theorem getScore_bump (m : RRFMap) (key : String) (r : SearchResult) (s : ℚ) (K : String) :
    getScore (bump m key r s) K = getScore m K + (if key = K then s else 0) := by
  induction m with
  | nil => simp [bump, getScore]
  | cons e m ih =>
    by_cases he : e.1 = key
    · subst he
      by_cases hK : e.1 = K <;> simp [bump, getScore, hK]
    · by_cases hK : e.1 = K
      · subst hK
        simp [bump, getScore, he, Ne.symm he]
      · simp [bump, he, getScore, hK, ih]

theorem getScore_addScores (k : ℚ) (K : String) :
    ∀ (L : List SearchResult) (i : Nat) (m : RRFMap),
      getScore (addScores k i L m) K = getScore m K + rrfContrib k K i L := by
  intro L
  induction L with
  | nil => intro i m; simp [addScores, rrfContrib]
  | cons r rs ih =>
    intro i m
    rw [addScores, ih, getScore_bump, rrfContrib]
    ring

theorem getScore_rrfMap (results1 results2 : List SearchResult) (k : ℚ) (K : String) :
    getScore (rrfMap results1 results2 k) K =
      rrfContrib k K 0 results1 + rrfContrib k K 0 results2 := by
  rw [rrfMap, getScore_addScores, getScore_addScores]
  simp [getScore]

def xR : SearchResult := ⟨"x text", "http://x.example/x", "X", 0⟩
def yR : SearchResult := ⟨"y text", "http://y.example/y", "Y", 0⟩
def zR : SearchResult := ⟨"z text", "http://z.example/z", "Z", 0⟩
def wR : SearchResult := ⟨"w text", "http://w.example/w", "W", 0⟩

/-- Claim C5. In `reciprocalRankFusion` with k = 60 (the configured `RRF_K`),
the accumulated score of any dedup key is exactly the sum over both input
lists of `1/(k+i+1)` for each 0-based rank `i` where that key occurs
(contributions from both lists sum); on A = [x,y,z], B = [y,x,w] this gives
score(x) = 1/61 + 1/62 = score(y) and score(w) = 1/63 only. -/
theorem reciprocalRankFusion_scores :
    (∀ (results1 results2 : List SearchResult) (K : String),
      getScore (rrfMap results1 results2 RRF_K) K =
        rrfContrib RRF_K K 0 results1 + rrfContrib RRF_K K 0 results2)
    ∧ getScore (rrfMap [xR, yR, zR] [yR, xR, wR] RRF_K) (rrfKey xR) = 1/61 + 1/62
    ∧ getScore (rrfMap [xR, yR, zR] [yR, xR, wR] RRF_K) (rrfKey yR) = 1/62 + 1/61
    ∧ getScore (rrfMap [xR, yR, zR] [yR, xR, wR] RRF_K) (rrfKey xR) =
        getScore (rrfMap [xR, yR, zR] [yR, xR, wR] RRF_K) (rrfKey yR)
    ∧ getScore (rrfMap [xR, yR, zR] [yR, xR, wR] RRF_K) (rrfKey wR) = 1/63 := by
  have hyx : rrfKey yR ≠ rrfKey xR := by decide
  have hzx : rrfKey zR ≠ rrfKey xR := by decide
  have hwx : rrfKey wR ≠ rrfKey xR := by decide
  have hxy : rrfKey xR ≠ rrfKey yR := by decide
  have hzy : rrfKey zR ≠ rrfKey yR := by decide
  have hwy : rrfKey wR ≠ rrfKey yR := by decide
  have hxw : rrfKey xR ≠ rrfKey wR := by decide
  have hyw : rrfKey yR ≠ rrfKey wR := by decide
  have hzw : rrfKey zR ≠ rrfKey wR := by decide
  refine ⟨fun r1 r2 K => getScore_rrfMap r1 r2 RRF_K K, ?_, ?_, ?_, ?_⟩ <;>
    rw [getScore_rrfMap] <;> try rw [getScore_rrfMap]
  · simp only [rrfContrib, if_pos rfl, hyx, hzx, hwx, if_neg, ite_false]
    norm_num [RRF_K]
  · simp only [rrfContrib, if_pos rfl, hxy, hzy, hwy, if_neg, ite_false]
    norm_num [RRF_K]
  · simp only [rrfContrib, if_pos rfl, hyx, hzx, hwx, hxy, hzy, hwy, if_neg, ite_false]
    norm_num [RRF_K]
  · simp only [rrfContrib, if_pos rfl, hxw, hyw, hzw, if_neg, ite_false]
    norm_num [RRF_K]

/-! ## Fetcher (`fetchAndParsePage` / `fetchWithoutRedirect`, crawler.ts)

The HTTP layer is an oracle: `http n u` is the response to the `n`-th request
of this page-fetch when sent to `u`; `resolve loc base` models
`new URL(loc, base).href`; `parse` models the cheerio-based `parsePage`.
`fetchAndParsePage` additionally returns the list of URLs it actually
requested, in order, so that hop-counting is a statement about the model. -/

structure HttpResponse where
  status : Nat
  location : Option String
  contentType : String
  contentLength : Option Nat
  /-- `none` models a body whose streamed read failed or exceeded the size cap. -/
  body : Option String

structure HttpBackend where
  http : Nat → String → HttpResponse
  resolve : String → String → String
  parse : String → String → CrawledPage

/-- Model of `response.ok` -/
def responseOk (r : HttpResponse) : Bool := 200 ≤ r.status && r.status < 300

/-- Model of `response.status >= 300 && response.status < 400` -/
def is3xx (r : HttpResponse) : Bool := 300 ≤ r.status && r.status < 400

/-- Shared tail of both fetch paths: content-type check, `Content-Length`
check, streamed body read with size cap, then parse. -/
def processBody (be : HttpBackend) (r : HttpResponse) (url : String) : Option CrawledPage :=
  if !(strContainsSubstr r.contentType "text/html") then none
  else if (match r.contentLength with
           | some n => decide (n > MAX_RESPONSE_SIZE_BYTES)
           | none => false) then none
  else
    match r.body with
    | none => none
    | some html => some (be.parse url html)

/-- Model of `fetchWithoutRedirect` (crawler.ts): one non-redirecting fetch that
refuses both failure statuses and any further 3xx. -/
def fetchWithoutRedirect (be : HttpBackend) (reqIdx : Nat) (url : String) :
    Option CrawledPage :=
  let response := be.http reqIdx url
  if !(responseOk response) || is3xx response then none
  else processBody be response url

/-- Model of `fetchAndParsePage` (crawler.ts) with its request trace: a 3xx response
resolves `Location`, re-runs the URL guard, and on success performs exactly
one more non-redirecting fetch. -/
def fetchAndParsePage (be : HttpBackend) (url : String) :
    Option CrawledPage × List String :=
  let response := be.http 0 url
  if is3xx response then
    match response.location with
    | none => (none, [url])
    | some location =>
      let redirectUrl := be.resolve location url
      if isBlockedUrl redirectUrl then (none, [url])
      else (fetchWithoutRedirect be 1 redirectUrl, [url, redirectUrl])
  else if !(responseOk response) then (none, [url])
  else (processBody be response url, [url])

/-! ### C2 -/

/-- Claim C2. For every backend behavior, `fetchAndParsePage` requests at most
two URLs (so never follows a redirect chain of length ≥ 2); when the first
response is 3xx and the resolved `Location` target is blocked by the URL
guard it returns `none` having fetched only the original URL; and when the
guard permits the target but the single follow-up fetch itself answers 3xx,
the result is `none` rather than a further follow. -/
theorem fetchAndParsePage_single_hop (be : HttpBackend) (url : String) :
    (fetchAndParsePage be url).2.length ≤ 2
    ∧ (∀ loc, is3xx (be.http 0 url) = true → (be.http 0 url).location = some loc →
        isBlockedUrl (be.resolve loc url) = true →
        fetchAndParsePage be url = (none, [url]))
    ∧ (∀ loc, is3xx (be.http 0 url) = true → (be.http 0 url).location = some loc →
        isBlockedUrl (be.resolve loc url) = false →
        is3xx (be.http 1 (be.resolve loc url)) = true →
        (fetchAndParsePage be url).1 = none) := by
  refine ⟨?_, ?_, ?_⟩
  · by_cases h3 : is3xx (be.http 0 url) = true
    · cases hloc : (be.http 0 url).location with
      | none => simp [fetchAndParsePage, h3, hloc]
      | some loc =>
        by_cases hb : isBlockedUrl (be.resolve loc url) = true
        · simp [fetchAndParsePage, h3, hloc, hb]
        · simp [fetchAndParsePage, h3, hloc, hb]
    · by_cases hok : responseOk (be.http 0 url) = true
      · simp [fetchAndParsePage, h3, hok]
      · simp [fetchAndParsePage, h3, hok]
  · intro loc h3 hloc hb
    simp [fetchAndParsePage, h3, hloc, hb]
  · intro loc h3 hloc hb h32
    simp [fetchAndParsePage, h3, hloc, hb, fetchWithoutRedirect, h32]

/-- Concrete backend for the C2 witness: first request answers 301 to
`http://r.example/`, the follow-up answers 302. -/
def redirectingBE : HttpBackend :=
  { http := fun i _ =>
      if i = 0 then
        { status := 301, location := some "http://r.example/",
          contentType := "", contentLength := none, body := none }
      else
        { status := 302, location := some "http://s.example/",
          contentType := "", contentLength := none, body := none },
    resolve := fun loc _ => loc,
    parse := fun u h => ⟨u, h, h, []⟩ }

/-- Witness for C2: a 3xx → 3xx chain is cut after the second response. -/
theorem fetchAndParsePage_single_hop_witness :
    (fetchAndParsePage redirectingBE "http://a.example/").1 = none :=
  (fetchAndParsePage_single_hop redirectingBE "http://a.example/").2.2
    "http://r.example/" (by decide) (by decide) (by decide) (by decide)

/-! ## Crawler (`crawlWebsite`, crawler.ts)

`fetchAndParsePage` is abstracted as an oracle `fp : String → Option CrawledPage`
(`none` covers both a `null` result and a caught, logged fetch error — in both
cases the page is skipped and nothing is enqueued). The loop carries a fetch
trace of `(url, depth)` pairs recording each `fetchAndParsePage` call. -/

/-- Model of `/\.(pdf|zip|png|jpg|gif|svg|css|js)$/i` on the whole link string. -/
def hasBinaryExt (link : String) : Bool :=
  let l := jsToLower link
  strEndsWith l ".pdf" || strEndsWith l ".zip" || strEndsWith l ".png" ||
  strEndsWith l ".jpg" || strEndsWith l ".gif" || strEndsWith l ".svg" ||
  strEndsWith l ".css" || strEndsWith l ".js"

/-- Model of `filterValidLinks` (crawler.ts): drop visited, fragment-bearing,
binary-extension and off-domain links (exact host or subdomain match). -/
def filterValidLinks (links : List String) (allowedDomains : List String)
    (visited : List String) : List String :=
  links.filter (fun link =>
    if visited.contains link then false
    else
      match parseURL link with
      | none => false
      | some u =>
        if u.hash != "" || hasBinaryExt link then false
        else allowedDomains.any
          (fun domain => u.host == domain || strEndsWith u.host ("." ++ domain)))

structure CrawlOptions where
  maxDepth : Nat
  maxPages : Option Nat := none
  allowedDomains : Option (List String) := none

/-- The `while (queue.length > 0 && pages.length < maxPages)` loop of
`crawlWebsite`, fuel-bounded. -/
def crawlLoop (fp : String → Option CrawledPage) (domains : List String)
    (maxDepth maxPages : Nat) :
    Nat → List (String × Nat) → List String → List CrawledPage → List (String × Nat) →
    List CrawledPage × List (String × Nat)
  | 0, _, _, pages, trace => (pages, trace)
  | _ + 1, [], _, pages, trace => (pages, trace)
  | fuel + 1, (url, depth) :: rest, visited, pages, trace =>
    if pages.length < maxPages then
      if visited.contains url || decide (maxDepth < depth) then
        crawlLoop fp domains maxDepth maxPages fuel rest visited pages trace
      else if isBlockedUrl url then
        crawlLoop fp domains maxDepth maxPages fuel rest visited pages trace
      else
        let visited' := visited ++ [url]
        let trace' := trace ++ [(url, depth)]
        match fp url with
        | none => crawlLoop fp domains maxDepth maxPages fuel rest visited' pages trace'
        | some page =>
          let pages' := pages ++ [page]
          let queue' :=
            if depth < maxDepth then
              rest ++ (filterValidLinks page.links domains visited').map
                (fun l => (l, depth + 1))
            else rest
          crawlLoop fp domains maxDepth maxPages fuel queue' visited' pages' trace'
    else (pages, trace)

/-- Model of `crawlWebsite` (crawler.ts): depth clamp, SSRF check on the start URL
(`none` models the thrown error), default domain allowlist, BFS loop. -/
def crawlWebsite (fp : String → Option CrawledPage) (startUrl : String)
    (options : CrawlOptions) (fuel : Nat) :
    Option (List CrawledPage × List (String × Nat)) :=
  let maxDepth := min options.maxDepth MAX_DEPTH_LIMIT
  let maxPages := options.maxPages.getD DEFAULT_MAX_PAGES
  if isBlockedUrl startUrl then none
  else
    match parseURL startUrl with
    | none => none
    | some u =>
      let domains := options.allowedDomains.getD [u.host]
      some (crawlLoop fp domains maxDepth maxPages fuel [(startUrl, 0)] [] [] [])

/-! ### C3 -/

theorem crawlLoop_bounded (fp : String → Option CrawledPage) (domains : List String)
    (maxDepth maxPages : Nat) :
    ∀ (fuel : Nat) (queue : List (String × Nat)) (visited : List String)
      (pages : List CrawledPage) (trace : List (String × Nat)),
      pages.length ≤ maxPages → (∀ p ∈ trace, p.2 ≤ maxDepth) →
      (crawlLoop fp domains maxDepth maxPages fuel queue visited pages trace).1.length ≤ maxPages
      ∧ ∀ p ∈ (crawlLoop fp domains maxDepth maxPages fuel queue visited pages trace).2,
          p.2 ≤ maxDepth := by
  intro fuel
  induction fuel with
  | zero =>
    intro queue visited pages trace h1 h2
    exact ⟨h1, h2⟩
  | succ n ih =>
    intro queue visited pages trace h1 h2
    match queue with
    | [] => exact ⟨h1, h2⟩
    | (url, depth) :: rest =>
      rw [crawlLoop]
      by_cases hp : pages.length < maxPages
      · simp only [hp, if_true]
        by_cases hv : (visited.contains url || decide (maxDepth < depth)) = true
        · simp only [hv, if_true]
          exact ih rest visited pages trace h1 h2
        · have hdepth : depth ≤ maxDepth := by
            simp only [Bool.or_eq_true, decide_eq_true_eq, not_or] at hv
            omega
          have h2' : ∀ p ∈ trace ++ [(url, depth)], p.2 ≤ maxDepth := by
            intro p hp'
            rcases List.mem_append.mp hp' with h | h
            · exact h2 p h
            · simp only [List.mem_singleton] at h
              subst h
              exact hdepth
          simp only [hv, if_false, Bool.false_eq_true]
          by_cases hb : isBlockedUrl url = true
          · simp only [hb, if_true]
            exact ih rest visited pages trace h1 h2
          · simp only [hb, if_false, Bool.false_eq_true]
            cases hfp : fp url with
            | none => exact ih rest (visited ++ [url]) pages (trace ++ [(url, depth)]) h1 h2'
            | some page =>
              have h1' : (pages ++ [page]).length ≤ maxPages := by
                simp only [List.length_append, List.length_singleton]
                omega
              exact ih _ (visited ++ [url]) (pages ++ [page]) (trace ++ [(url, depth)]) h1' h2'
      · simp only [hp, if_false]
        exact ⟨h1, h2⟩

def pageA : CrawledPage :=
  ⟨"http://docs.example/a", "A", "a content",
   ["http://docs.example/b", "http://docs.example/c"]⟩
def pageB : CrawledPage := ⟨"http://docs.example/b", "B", "b content", []⟩
def pageC : CrawledPage := ⟨"http://docs.example/c", "C", "c content", []⟩

/-- Fetch/parse model of a 3-page same-domain site: A links to B and C. -/
def siteFP : String → Option CrawledPage := fun u =>
  if u = "http://docs.example/a" then some pageA
  else if u = "http://docs.example/b" then some pageB
  else if u = "http://docs.example/c" then some pageC
  else none

/-- Claim C3. For every start URL, options and fetch/parse model, `crawlWebsite`
returns at most `maxPages` pages (default 100) and only ever fetches URLs at
depth ≤ min(maxDepth, 5); on the 3-page site where A links to B and C,
maxDepth = 1 yields exactly the pages [A, B, C] and maxDepth = 0 yields
only [A]. -/
theorem crawlWebsite_bounded :
    (∀ fp startUrl options fuel pages trace,
      crawlWebsite fp startUrl options fuel = some (pages, trace) →
      pages.length ≤ options.maxPages.getD DEFAULT_MAX_PAGES
      ∧ ∀ p ∈ trace, p.2 ≤ min options.maxDepth MAX_DEPTH_LIMIT)
    ∧ crawlWebsite siteFP "http://docs.example/a" ⟨1, none, none⟩ 10 =
        some ([pageA, pageB, pageC],
          [("http://docs.example/a", 0), ("http://docs.example/b", 1),
           ("http://docs.example/c", 1)])
    ∧ crawlWebsite siteFP "http://docs.example/a" ⟨0, none, none⟩ 10 =
        some ([pageA], [("http://docs.example/a", 0)]) := by
  refine ⟨?_, by decide, by decide⟩
  intro fp startUrl options fuel pages trace hcw
  rw [crawlWebsite] at hcw
  by_cases hb : isBlockedUrl startUrl = true
  · simp [hb] at hcw
  · simp only [hb, Bool.false_eq_true, if_false, Bool.not_eq_true] at hcw
    cases hu : parseURL startUrl with
    | none => rw [hu] at hcw; exact absurd hcw (by simp)
    | some u =>
      rw [hu] at hcw
      simp only [Option.some.injEq] at hcw
      obtain ⟨hl, ht⟩ := crawlLoop_bounded fp (options.allowedDomains.getD [u.host])
        (min options.maxDepth MAX_DEPTH_LIMIT) (options.maxPages.getD DEFAULT_MAX_PAGES)
        fuel [(startUrl, 0)] [] [] [] (by simp) (by simp)
      rw [hcw] at hl ht
      exact ⟨hl, ht⟩

/-- Witness for C3: the bound instantiated at the concrete 3-page crawl. -/
theorem crawlWebsite_bounded_witness :
    ([pageA, pageB, pageC] : List CrawledPage).length ≤ DEFAULT_MAX_PAGES
    ∧ ∀ p ∈ [(("http://docs.example/a" : String), (0 : Nat)),
        ("http://docs.example/b", 1), ("http://docs.example/c", 1)],
        p.2 ≤ min 1 MAX_DEPTH_LIMIT :=
  crawlWebsite_bounded.1 siteFP "http://docs.example/a" ⟨1, none, none⟩ 10
    [pageA, pageB, pageC]
    [("http://docs.example/a", 0), ("http://docs.example/b", 1), ("http://docs.example/c", 1)]
    (by decide)

/-! ## Vector store deletion (`deleteByUrl` / `getBaseUrl`, vectorstore.ts)

The chroma collection is a list of records scanned with
`(l.drop offset).take BATCH_SIZE`; `collection.delete({ids})` removes every
record whose id is in `ids`. Record ids are an abstract type `ι` with
decidable equality (the source uses strings; nothing depends on that). The
loop also returns a trace of `(offsetBefore, deletedCount, offsetAfter)`
triples, one per page scanned. -/

structure DRecord (ι : Type) where
  id : ι
  url : String
deriving Repr, DecidableEq

/-- Model of `getBaseUrl` (vectorstore.ts): `` `${parsed.protocol}//${parsed.hostname}` ``,
or the raw string when parsing fails. -/
def getBaseUrl (url : String) : String :=
  match parseURL url with
  | some parsed => parsed.scheme ++ "://" ++ parsed.host
  | none => url

/-- The per-record selection `meta.url.startsWith(baseUrl)`. -/
def matchesBase {ι : Type} (baseUrl : String) (r : DRecord ι) : Bool :=
  strStartsWith r.url baseUrl

structure DeleteTraceEntry where
  offsetBefore : Nat
  deleted : Nat
  offsetAfter : Nat
deriving Repr, DecidableEq

/-- The `while (hasMore)` loop of `deleteByUrl`, fuel-bounded
(`fuel > l.length` always suffices). -/
def deleteLoop {ι : Type} [DecidableEq ι] (baseUrl : String) :
    Nat → List (DRecord ι) → Nat → Nat → List DeleteTraceEntry →
    Nat × List (DRecord ι) × List DeleteTraceEntry
  | 0, l, _, total, tr => (total, l, tr)
  | fuel + 1, l, offset, total, tr =>
    let batch := (l.drop offset).take BATCH_SIZE
    if batch.length = 0 then (total, l, tr)
    else
      let idsToDelete := (batch.filter (matchesBase baseUrl)).map (fun r => r.id)
      let l' := if 0 < idsToDelete.length
        then l.filter (fun r => !(idsToDelete.contains r.id)) else l
      let total' := total + idsToDelete.length
      let offset' := if idsToDelete.length = 0 then offset + batch.length else offset
      let tr' := tr ++ [⟨offset, idsToDelete.length, offset'⟩]
      if batch.length = BATCH_SIZE then deleteLoop baseUrl fuel l' offset' total' tr'
      else (total', l', tr')

/-- Model of `deleteByUrl` (vectorstore.ts): returns the total deleted count, the
final collection state, and the scan trace. -/
def deleteByUrl {ι : Type} [DecidableEq ι] (fuel : Nat) (l : List (DRecord ι))
    (url : String) : Nat × List (DRecord ι) × List DeleteTraceEntry :=
  deleteLoop (getBaseUrl url) fuel l 0 0 []

/-! ### C4 helper lemmas -/

theorem length_filter_not_add (p : α → Bool) (l : List α) :
    (l.filter (fun a => !(p a))).length + (l.filter p).length = l.length := by
  induction l with
  | nil => rfl
  | cons a l ih =>
    cases h : p a <;> simp [List.filter_cons, h, ← ih] <;> omega

theorem filter_p_filter_not (p : α → Bool) (l : List α) :
    (l.filter (fun a => !(p a))).filter p = [] := by
  induction l with
  | nil => rfl
  | cons a l ih => cases h : p a <;> simp [List.filter_cons, h, ih]

theorem filter_not_idem (p : α → Bool) (l : List α) :
    (l.filter (fun a => !(p a))).filter (fun a => !(p a)) = l.filter (fun a => !(p a)) := by
  induction l with
  | nil => rfl
  | cons a l ih => cases h : p a <;> simp [List.filter_cons, h, ih]

/-- Under id-nodup, an id from the matching part of the middle window `W`
identifies a record of `W` itself: deleting by those ids turns `A ++ W ++ R`
into `A ++ (non-matching part of W) ++ R`. -/
theorem filter_erase_ids {ι : Type} [DecidableEq ι] (P : DRecord ι → Bool)
    (A W R : List (DRecord ι))
    (hnd : ((A ++ W ++ R).map (fun r => r.id)).Nodup) :
    (A ++ W ++ R).filter
        (fun r => !(((W.filter P).map (fun r => r.id)).contains r.id)) =
      A ++ W.filter (fun r => !(P r)) ++ R := by
  have hmapapp : (A ++ W ++ R).map (fun r => r.id) =
      A.map (fun r => r.id) ++ W.map (fun r => r.id) ++ R.map (fun r => r.id) := by
    simp [List.map_append]
  rw [hmapapp] at hnd
  rw [List.append_assoc] at hnd
  have hAdisj := List.disjoint_of_nodup_append hnd
  have hnd2 := List.Nodup.of_append_right hnd
  have hWdisj := List.disjoint_of_nodup_append hnd2
  have hWnd : (W.map (fun r => r.id)).Nodup := (List.nodup_append.mp hnd2).1
  have hinjW := List.inj_on_of_nodup_map hWnd
  -- membership characterisation of the deleted ids
  have key : ∀ x : DRecord ι,
      (((W.filter P).map (fun r => r.id)).contains x.id) = true ↔
      ∃ s ∈ W, P s = true ∧ s.id = x.id := by
    intro x
    constructor
    · intro h
      have hmem : x.id ∈ (W.filter P).map (fun r => r.id) := by
        simpa using h
      obtain ⟨s, hs, hsid⟩ := List.mem_map.mp hmem
      exact ⟨s, (List.mem_filter.mp hs).1, (List.mem_filter.mp hs).2, hsid⟩
    · intro ⟨s, hsW, hsP, hsid⟩
      have hmem : x.id ∈ (W.filter P).map (fun r => r.id) :=
        List.mem_map.mpr ⟨s, List.mem_filter.mpr ⟨hsW, hsP⟩, hsid⟩
      simpa using hmem
  rw [List.filter_append, List.filter_append]
  congr 1
  congr 1
  · -- A is untouched
    rw [List.filter_eq_self]
    intro a ha
    rw [Bool.not_eq_true', Bool.eq_false_iff]
    intro hc
    obtain ⟨s, hsW, _, hsid⟩ := (key a).mp hc
    exact hAdisj (List.mem_map_of_mem (fun r => r.id) ha)
      (List.mem_append_left _ (hsid ▸ List.mem_map_of_mem (fun r => r.id) hsW))
  · -- in W, deletion by id is exactly deletion of the matching records
    apply List.filter_congr
    intro w hw
    cases hP : P w with
    | true =>
      have hcw : (((W.filter P).map (fun r => r.id)).contains w.id) = true :=
        (key w).mpr ⟨w, hw, hP, rfl⟩
      rw [hcw]
    | false =>
      have hcw : (((W.filter P).map (fun r => r.id)).contains w.id) = false := by
        rw [Bool.eq_false_iff]
        intro hc
        obtain ⟨s, hsW, hsP, hsid⟩ := (key w).mp hc
        have hsw : s = w := hinjW hsW hw hsid
        rw [hsw, hP] at hsP
        exact absurd hsP (by decide)
      rw [hcw]
  · -- R is untouched
    rw [List.filter_eq_self]
    intro r hr
    rw [Bool.not_eq_true', Bool.eq_false_iff]
    intro hc
    obtain ⟨s, hsW, _, hsid⟩ := (key r).mp hc
    exact hWdisj (hsid ▸ List.mem_map_of_mem (fun r => r.id) hsW)
      (List.mem_map_of_mem (fun r => r.id) hr)

theorem take_length_take (D : List α) (n : Nat) :
    D.take ((D.take n).length) = D.take n := by
  rw [List.length_take]
  rcases Nat.le_total D.length n with h | h
  · rw [Nat.min_eq_right h, List.take_of_length_le h, List.take_of_length_le (Nat.le_refl _)]
  · rw [Nat.min_eq_left h]

/-- Correctness of the deletion scan, stated over a clean already-scanned
prefix `A` (every record of `A` fails the match) and the unscanned part `D`:
the loop deletes exactly `D`'s matching records and counts them. -/
theorem deleteLoop_correct {ι : Type} [DecidableEq ι] (base : String) :
    ∀ (fuel : Nat) (A D : List (DRecord ι)) (total : Nat) (tr : List DeleteTraceEntry),
      ((A ++ D).map (fun r => r.id)).Nodup →
      (∀ r ∈ A, matchesBase base r = false) →
      D.length < fuel →
      (deleteLoop base fuel (A ++ D) A.length total tr).1 =
          total + (D.filter (matchesBase base)).length
      ∧ (deleteLoop base fuel (A ++ D) A.length total tr).2.1 =
          A ++ D.filter (fun r => !(matchesBase base r)) := by
  intro fuel
  induction fuel with
  | zero => intro A D total tr _ _ hf; omega
  | succ n ih =>
    intro A D total tr hnd hA hf
    have hdropA : (A ++ D).drop A.length = D := List.drop_left A D
    have hWR : D.take BATCH_SIZE ++ D.drop BATCH_SIZE = D := List.take_append_drop _ _
    have hlenWR : (D.take BATCH_SIZE).length + (D.drop BATCH_SIZE).length = D.length := by
      rw [← List.length_append, hWR]
    rw [deleteLoop, hdropA]
    by_cases hW0 : (D.take BATCH_SIZE).length = 0
    · -- empty page: D is empty, nothing left to do
      rw [if_pos hW0]
      have hD : D = [] := by
        rcases List.take_eq_nil_iff.mp (List.length_eq_zero.mp hW0) with h | h
        · exact absurd h (by decide)
        · exact h
      subst hD
      exact ⟨by simp, by simp⟩
    · rw [if_neg hW0]
      dsimp only
      by_cases hd : (((D.take BATCH_SIZE).filter (matchesBase base)).map
          (fun r => r.id)).length = 0
      · -- page without matches: keep the collection, advance the offset
        have hWclean : ∀ w ∈ D.take BATCH_SIZE, matchesBase base w = false := by
          have hnil : (D.take BATCH_SIZE).filter (matchesBase base) = [] :=
            List.map_eq_nil_iff.mp (List.length_eq_zero.mp hd)
          intro w hw
          by_contra hcon
          have hwmem : w ∈ (D.take BATCH_SIZE).filter (matchesBase base) :=
            List.mem_filter.mpr ⟨hw, by revert hcon; cases matchesBase base w <;> simp⟩
          simp_all
        have hDfilter : D.filter (matchesBase base) =
            (D.drop BATCH_SIZE).filter (matchesBase base) := by
          conv_lhs => rw [← hWR]
          rw [List.filter_append, List.filter_eq_nil_iff.mpr
            (fun w hw => by rw [hWclean w hw]; exact (by decide)), List.nil_append]
        have hDfilterNot : D.filter (fun r => !(matchesBase base r)) =
            D.take BATCH_SIZE ++ (D.drop BATCH_SIZE).filter
              (fun r => !(matchesBase base r)) := by
          conv_lhs => rw [← hWR]
          rw [List.filter_append, List.filter_eq_self.mpr
            (fun w hw => by rw [hWclean w hw]; rfl)]
        have hnotpos : ¬ 0 < (((D.take BATCH_SIZE).filter (matchesBase base)).map
            (fun r => r.id)).length := by omega
        rw [if_neg hnotpos, if_pos hd, hd, Nat.add_zero]
        by_cases hfull : (D.take BATCH_SIZE).length = BATCH_SIZE
        · rw [if_pos hfull]
          have hAW : A.length + (D.take BATCH_SIZE).length =
              (A ++ D.take BATCH_SIZE).length := (List.length_append _ _).symm
          have hsplit : A ++ D = (A ++ D.take BATCH_SIZE) ++ D.drop BATCH_SIZE := by
            rw [List.append_assoc, hWR]
          rw [hAW, hsplit]
          have hclean' : ∀ r ∈ A ++ D.take BATCH_SIZE, matchesBase base r = false := by
            intro r hr
            rcases List.mem_append.mp hr with h | h
            · exact hA r h
            · exact hWclean r h
          have hnd' : (((A ++ D.take BATCH_SIZE) ++ D.drop BATCH_SIZE).map
              (fun r => r.id)).Nodup := by
            rw [← hsplit]; exact hnd
          have hlen : (D.drop BATCH_SIZE).length < n := by
            have h2 : (0:Nat) < BATCH_SIZE := by decide
            omega
          obtain ⟨h1, h2⟩ := ih (A ++ D.take BATCH_SIZE) (D.drop BATCH_SIZE) total _
            hnd' hclean' hlen
          refine ⟨?_, ?_⟩
          · rw [h1, hDfilter]
          · rw [h2, hDfilterNot, List.append_assoc]
        · -- short page without matches: the scan ends, everything was clean
          rw [if_neg hfull]
          have hDW : D.take BATCH_SIZE = D := by
            rcases Nat.le_total D.length BATCH_SIZE with h | h
            · exact List.take_of_length_le h
            · have := List.length_take BATCH_SIZE D
              exact absurd (by omega : (D.take BATCH_SIZE).length = BATCH_SIZE) hfull
          have hdrop : D.drop BATCH_SIZE = [] := by
            have h2 : (D.take BATCH_SIZE).length = D.length := by rw [hDW]
            exact List.length_eq_zero.mp (by omega)
          refine ⟨?_, ?_⟩
          · rw [hDfilter, hdrop]
            simp
          · rw [hDfilterNot, hdrop]
            simp
            have hld := List.length_drop BATCH_SIZE D
            rw [hdrop] at hld
            simp at hld
            omega
      · -- page with matches: delete them, keep the offset
        have hdpos : 0 < (((D.take BATCH_SIZE).filter (matchesBase base)).map
            (fun r => r.id)).length := by omega
        rw [if_pos hdpos, if_neg hd]
        have hassoc : A ++ D = A ++ D.take BATCH_SIZE ++ D.drop BATCH_SIZE := by
          rw [List.append_assoc, hWR]
        have hnd' : ((A ++ D.take BATCH_SIZE ++ D.drop BATCH_SIZE).map
            (fun r => r.id)).Nodup := by rw [← hassoc]; exact hnd
        have herase := filter_erase_ids (matchesBase base) A (D.take BATCH_SIZE)
          (D.drop BATCH_SIZE) hnd'
        have hl' : (A ++ D).filter
            (fun r => !((((D.take BATCH_SIZE).filter (matchesBase base)).map
              (fun r => r.id)).contains r.id)) =
            A ++ ((D.take BATCH_SIZE).filter (fun r => !(matchesBase base r))
              ++ D.drop BATCH_SIZE) := by
          rw [hassoc, herase, List.append_assoc]
        rw [hl']
        have hlenW' : ((D.take BATCH_SIZE).filter (fun r => !(matchesBase base r))).length
            + ((D.take BATCH_SIZE).filter (matchesBase base)).length
            = (D.take BATCH_SIZE).length :=
          length_filter_not_add _ _
        have hDfilter : D.filter (matchesBase base) =
            (D.take BATCH_SIZE).filter (matchesBase base)
            ++ (D.drop BATCH_SIZE).filter (matchesBase base) := by
          conv_lhs => rw [← hWR]
          rw [List.filter_append]
        have hDfilterNot : D.filter (fun r => !(matchesBase base r)) =
            (D.take BATCH_SIZE).filter (fun r => !(matchesBase base r))
            ++ (D.drop BATCH_SIZE).filter (fun r => !(matchesBase base r)) := by
          conv_lhs => rw [← hWR]
          rw [List.filter_append]
        by_cases hfull : (D.take BATCH_SIZE).length = BATCH_SIZE
        · rw [if_pos hfull]
          have hnd'' : ((A ++ ((D.take BATCH_SIZE).filter (fun r => !(matchesBase base r))
              ++ D.drop BATCH_SIZE)).map (fun r => r.id)).Nodup := by
            rw [← List.append_assoc, ← herase]
            exact ((List.filter_sublist _).map _).nodup hnd'
          have hlen'' : ((D.take BATCH_SIZE).filter (fun r => !(matchesBase base r))
              ++ D.drop BATCH_SIZE).length < n := by
            rw [List.length_append]
            have h3 : 0 < ((D.take BATCH_SIZE).filter (matchesBase base)).length := by
              rw [List.length_map] at hdpos
              exact hdpos
            omega
          obtain ⟨h1, h2⟩ := ih A ((D.take BATCH_SIZE).filter (fun r => !(matchesBase base r))
              ++ D.drop BATCH_SIZE) _ _ hnd'' hA hlen''
          refine ⟨?_, ?_⟩
          · rw [h1]
            rw [List.filter_append, filter_p_filter_not, List.nil_append]
            rw [hDfilter, List.length_append, List.length_map]
            omega
          · rw [h2]
            rw [List.filter_append, filter_not_idem]
            rw [hDfilterNot]
        · -- short page with matches: delete and stop
          rw [if_neg hfull]
          have hDW : D.take BATCH_SIZE = D := by
            rcases Nat.le_total D.length BATCH_SIZE with h | h
            · exact List.take_of_length_le h
            · have := List.length_take BATCH_SIZE D
              exact absurd (by omega : (D.take BATCH_SIZE).length = BATCH_SIZE) hfull
          have hdrop : D.drop BATCH_SIZE = [] := by
            have h2 : (D.take BATCH_SIZE).length = D.length := by rw [hDW]
            exact List.length_eq_zero.mp (by omega)
          refine ⟨?_, ?_⟩
          · rw [List.length_map, hDW]
          · rw [hDW, hdrop, List.append_nil]

theorem deleteLoop_trace {ι : Type} [DecidableEq ι] (base : String) :
    ∀ (fuel : Nat) (l : List (DRecord ι)) (offset total : Nat) (tr : List DeleteTraceEntry),
      (∀ e ∈ tr, e.offsetAfter ≠ e.offsetBefore → e.deleted = 0) →
      ∀ e ∈ (deleteLoop base fuel l offset total tr).2.2,
        e.offsetAfter ≠ e.offsetBefore → e.deleted = 0 := by
  intro fuel
  induction fuel with
  | zero => intro l offset total tr h; exact h
  | succ n ih =>
    intro l offset total tr h
    rw [deleteLoop]
    by_cases hW0 : ((l.drop offset).take BATCH_SIZE).length = 0
    · rw [if_pos hW0]
      exact h
    · rw [if_neg hW0]
      dsimp only
      by_cases hd : ((((l.drop offset).take BATCH_SIZE).filter (matchesBase base)).map
          (fun r => r.id)).length = 0
      · have htr' : ∀ e ∈ tr ++ [⟨offset,
            ((((l.drop offset).take BATCH_SIZE).filter (matchesBase base)).map
              (fun r => r.id)).length,
            offset + ((l.drop offset).take BATCH_SIZE).length⟩],
            e.offsetAfter ≠ e.offsetBefore → e.deleted = 0 := by
          intro e he hne
          rcases List.mem_append.mp he with h' | h'
          · exact h e h' hne
          · simp only [List.mem_singleton] at h'
            subst h'
            exact hd
        have hnotpos : ¬ 0 < ((((l.drop offset).take BATCH_SIZE).filter (matchesBase base)).map
            (fun r => r.id)).length := by omega
        rw [if_neg hnotpos, if_pos hd]
        by_cases hfull : ((l.drop offset).take BATCH_SIZE).length = BATCH_SIZE
        · rw [if_pos hfull]
          exact ih _ _ _ _ htr'
        · rw [if_neg hfull]
          exact htr'
      · have hdpos : 0 < ((((l.drop offset).take BATCH_SIZE).filter (matchesBase base)).map
            (fun r => r.id)).length := by omega
        have htr' : ∀ e ∈ tr ++ [⟨offset,
            ((((l.drop offset).take BATCH_SIZE).filter (matchesBase base)).map
              (fun r => r.id)).length, offset⟩],
            e.offsetAfter ≠ e.offsetBefore → e.deleted = 0 := by
          intro e he hne
          rcases List.mem_append.mp he with h' | h'
          · exact h e h' hne
          · simp only [List.mem_singleton] at h'
            subst h'
            exact absurd rfl hne
        rw [if_pos hdpos, if_neg hd]
        by_cases hfull : ((l.drop offset).take BATCH_SIZE).length = BATCH_SIZE
        · rw [if_pos hfull]
          exact ih _ _ _ _ htr'
        · rw [if_neg hfull]
          exact htr'

/-! ### C4 -/

/-- One synthetic record: even ids live under base `http://a`, odd ids under
`http://b`, so exactly half of `delColl` matches the target base URL. -/
def delRec (i : Nat) : DRecord Nat :=
  ⟨i, (if i % 2 = 0 then "http://a/" else "http://b/") ++ toString i⟩

/-- Synthetic collection of 2500 records, 1250 of which match base `http://a`. -/
def delColl : List (DRecord Nat) := (List.range 2500).map delRec

set_option maxRecDepth 1000000 in
set_option maxHeartbeats 2000000 in
/-- Claim C4. For every finite collection with distinct record ids and enough
fuel for the scan, `deleteByUrl` deletes exactly the records whose stored url
starts with the base URL (`scheme://host`) of the input, returns their count,
and advances the scan offset only on pages where no deletions occurred; in
particular the 2500-record half-matching collection (page size 1000) ends
with all and only the matching records deleted and count 1250. -/
theorem deleteByUrl_correct :
    (∀ (ι : Type) [DecidableEq ι] (fuel : Nat) (l : List (DRecord ι)) (url : String),
      (l.map (fun r => r.id)).Nodup → l.length < fuel →
      (deleteByUrl fuel l url).1 = (l.filter (matchesBase (getBaseUrl url))).length
      ∧ (deleteByUrl fuel l url).2.1 =
          l.filter (fun r => !(matchesBase (getBaseUrl url) r)))
    ∧ (∀ (ι : Type) [DecidableEq ι] (fuel : Nat) (l : List (DRecord ι)) (url : String)
        (e : DeleteTraceEntry), e ∈ (deleteByUrl fuel l url).2.2 →
        e.offsetAfter ≠ e.offsetBefore → e.deleted = 0)
    ∧ (deleteByUrl 2501 delColl "http://a/start").1 = 1250
    ∧ (deleteByUrl 2501 delColl "http://a/start").2.1 =
        delColl.filter (fun r => !(matchesBase "http://a" r)) := by
  have main : ∀ (ι : Type) [DecidableEq ι] (fuel : Nat) (l : List (DRecord ι)) (url : String),
      (l.map (fun r => r.id)).Nodup → l.length < fuel →
      (deleteByUrl fuel l url).1 = (l.filter (matchesBase (getBaseUrl url))).length
      ∧ (deleteByUrl fuel l url).2.1 =
          l.filter (fun r => !(matchesBase (getBaseUrl url) r)) := by
    intro ι inst fuel l url hnd hfuel
    obtain ⟨h1, h2⟩ := deleteLoop_correct (getBaseUrl url) fuel [] l 0 [] hnd
      (by simp) hfuel
    simp only [List.nil_append, List.length_nil, Nat.zero_add] at h1 h2
    exact ⟨by rw [deleteByUrl]; exact h1, by rw [deleteByUrl]; exact h2⟩
  have hnodup : (delColl.map (fun r => r.id)).Nodup := by
    have hcomp : delColl.map (fun r => r.id) = List.range 2500 := by
      rw [delColl, List.map_map]
      rw [show ((fun (r : DRecord Nat) => r.id) ∘ delRec) = id from rfl, List.map_id]
    rw [hcomp]
    exact List.nodup_range 2500
  have hlen : delColl.length < 2501 := by
    rw [delColl, List.length_map, List.length_range]
    omega
  have hbase : getBaseUrl "http://a/start" = "http://a" := by decide
  obtain ⟨hc1, hc2⟩ := main Nat 2501 delColl "http://a/start" hnodup hlen
  rw [hbase] at hc1 hc2
  refine ⟨main, ?_, ?_, ?_⟩
  · intro ι inst fuel l url e he
    exact deleteLoop_trace (getBaseUrl url) fuel l 0 0 [] (by simp) e he
  · rw [hc1]
    decide
  · exact hc2

def wDelColl : List (DRecord Nat) := [⟨0, "http://a/0"⟩, ⟨1, "http://b/1"⟩]

/-- Witness for C4 at a 2-record collection. -/
theorem deleteByUrl_correct_witness :
    (deleteByUrl 3 wDelColl "http://a/x").1 =
        (wDelColl.filter (matchesBase (getBaseUrl "http://a/x"))).length
    ∧ (deleteByUrl 3 wDelColl "http://a/x").2.1 =
        wDelColl.filter (fun r => !(matchesBase (getBaseUrl "http://a/x") r)) :=
  deleteByUrl_correct.1 Nat 3 wDelColl "http://a/x" (by decide) (by decide)

/-! ## Source catalog (`listSources`, vectorstore.ts)

Stored metadata records are scanned page by page; the `sourceMap` is a JS
`Map` in insertion order, modelled as an association list. A base URL's
entry is created from the first record seen for that base (fixing `title`
and `indexedAt`) and then accumulates distinct page URLs and a chunk count. -/

structure MetaRec where
  url : String
  title : String
  indexedAt : String
deriving Repr, DecidableEq

structure SAcc where
  title : String
  pageUrls : List String
  chunkCount : Nat
  indexedAt : String
deriving Repr, DecidableEq

structure SourceInfo where
  url : String
  title : String
  pageCount : Nat
  chunkCount : Nat
  indexedAt : String
deriving Repr, DecidableEq

/-- JS `Set.prototype.add` on an insertion-ordered list. -/
def insertSet (s : List String) (x : String) : List String :=
  if s.contains x then s else s ++ [x]

/-- Loop body of `listSources` for one metadata record: create the base's
entry if absent (capturing this record's title and indexedAt), then add the
page URL and bump the chunk count. -/
def listStep (m : List (String × SAcc)) (meta : MetaRec) : List (String × SAcc) :=
  let baseUrl := getBaseUrl meta.url
  let m1 :=
    if m.any (fun e => e.1 == baseUrl) then m
    else m ++ [(baseUrl, ⟨meta.title, [], 0, meta.indexedAt⟩)]
  m1.map (fun e =>
    if e.1 == baseUrl then
      (e.1, ⟨e.2.title, insertSet e.2.pageUrls meta.url, e.2.chunkCount + 1, e.2.indexedAt⟩)
    else e)

/-- The paginated `while (hasMore)` scan of `listSources`, fuel-bounded. -/
def listLoop : Nat → List MetaRec → Nat → List (String × SAcc) → List (String × SAcc)
  | 0, _, _, m => m
  | fuel + 1, l, offset, m =>
    let batch := (l.drop offset).take BATCH_SIZE
    if batch.length = 0 then m
    else
      let m' := batch.foldl listStep m
      if batch.length = BATCH_SIZE then listLoop fuel l (offset + batch.length) m'
      else m'

/-- The final `Array.from(sourceMap.entries()).map(...)` projection. -/
def toSourceInfo (e : String × SAcc) : SourceInfo :=
  { url := e.1, title := e.2.title, pageCount := e.2.pageUrls.length,
    chunkCount := e.2.chunkCount, indexedAt := e.2.indexedAt }

/-- Model of `listSources` (vectorstore.ts). -/
def listSources (fuel : Nat) (l : List MetaRec) : List SourceInfo :=
  (listLoop fuel l 0 []).map toSourceInfo

/-! ### C9 helper lemmas -/

theorem listLoop_eq_foldl :
    ∀ (fuel : Nat) (l : List MetaRec) (offset : Nat) (m : List (String × SAcc)),
      l.length - offset < fuel →
      listLoop fuel l offset m = (l.drop offset).foldl listStep m := by
  intro fuel
  induction fuel with
  | zero => intro l offset m hf; omega
  | succ n ih =>
    intro l offset m hf
    rw [listLoop]
    by_cases h0 : ((l.drop offset).take BATCH_SIZE).length = 0
    · rw [if_pos h0]
      have : l.drop offset = [] := by
        rcases List.take_eq_nil_iff.mp (List.length_eq_zero.mp h0) with h | h
        · exact absurd h (by decide)
        · exact h
      rw [this]
      rfl
    · rw [if_neg h0]
      dsimp only
      have hWR : (l.drop offset).take BATCH_SIZE ++ (l.drop offset).drop BATCH_SIZE
          = l.drop offset := List.take_append_drop _ _
      by_cases hfull : ((l.drop offset).take BATCH_SIZE).length = BATCH_SIZE
      · rw [if_pos hfull, hfull]
        have hdd : (l.drop offset).drop BATCH_SIZE = l.drop (offset + BATCH_SIZE) := by
          rw [List.drop_drop, Nat.add_comm]
        have hlen : l.length - (offset + BATCH_SIZE) < n := by
          have h1 := List.length_drop offset l
          have h2 : ((l.drop offset).take BATCH_SIZE).length
              + ((l.drop offset).drop BATCH_SIZE).length = (l.drop offset).length := by
            rw [← List.length_append, hWR]
          have h3 := List.length_drop BATCH_SIZE (l.drop offset)
          have h4 : (0:Nat) < BATCH_SIZE := by decide
          omega
        rw [ih l (offset + BATCH_SIZE) _ hlen]
        conv_rhs => rw [← hWR]
        rw [List.foldl_append, hdd]
      · rw [if_neg hfull]
        have hshort : (l.drop offset).take BATCH_SIZE = l.drop offset := by
          rcases Nat.le_total (l.drop offset).length BATCH_SIZE with h | h
          · exact List.take_of_length_le h
          · have := List.length_take BATCH_SIZE (l.drop offset)
            exact absurd (by omega : ((l.drop offset).take BATCH_SIZE).length = BATCH_SIZE)
              hfull
        rw [hshort]

/-- Per-base accumulation: what one record adds to an existing entry. -/
def accAdd (a : SAcc) (meta : MetaRec) : SAcc :=
  ⟨a.title, insertSet a.pageUrls meta.url, a.chunkCount + 1, a.indexedAt⟩

/-- The fresh entry built from the first record seen for a base. -/
def accOf (meta : MetaRec) : SAcc := accAdd ⟨meta.title, [], 0, meta.indexedAt⟩ meta

/-- Lookup in the insertion-ordered map. -/
def lookupAcc (m : List (String × SAcc)) (K : String) : Option SAcc :=
  (m.find? (fun e => e.1 == K)).map (fun e => e.2)

theorem any_key_eq_isSome (m : List (String × SAcc)) (K : String) :
    m.any (fun e => e.1 == K) = (lookupAcc m K).isSome := by
  induction m with
  | nil => rfl
  | cons e m ih =>
    by_cases h : e.1 = K
    · simp [lookupAcc, List.find?, h]
    · have hbeq : (e.1 == K) = false := by simpa using h
      simp only [List.any_cons, hbeq, Bool.false_or, lookupAcc, List.find?_cons, hbeq]
      exact ih

/-- Lookup after the in-place `Map` update of the entry keyed `base`
(specialised to the update performed by `listStep` for record `r`). -/
theorem lookupAcc_map_update (m : List (String × SAcc)) (r : MetaRec) (base K : String) :
    lookupAcc (m.map (fun e =>
      if e.1 == base then
        (e.1, (⟨e.2.title, insertSet e.2.pageUrls r.url, e.2.chunkCount + 1,
          e.2.indexedAt⟩ : SAcc))
      else e)) K =
      if base = K then
        (lookupAcc m K).map (fun a =>
          ⟨a.title, insertSet a.pageUrls r.url, a.chunkCount + 1, a.indexedAt⟩)
      else lookupAcc m K := by
  induction m with
  | nil => by_cases h : base = K <;> simp [lookupAcc, h]
  | cons e m ih =>
    by_cases he : e.1 = base
    · by_cases hK : base = K
      · subst hK
        have hbeq : (e.1 == base) = true := by simpa using he
        simp [lookupAcc, List.find?_cons, hbeq, he]
      · have hbeq : (e.1 == base) = true := by simpa using he
        have hne : (e.1 == K) = false := by
          simp only [beq_eq_false_iff_ne, ne_eq]
          exact fun h => hK ((he.symm.trans h))
        simp only [List.map_cons, hbeq, if_true, lookupAcc, List.find?_cons, hne]
        rw [if_neg hK] at ih ⊢
        exact ih
    · have hbeq : (e.1 == base) = false := by simpa using he
      by_cases heK : e.1 = K
      · have hK : ¬ base = K := fun h => he (heK.trans h.symm)
        have heqK : (e.1 == K) = true := by simpa using heK
        simp [lookupAcc, List.find?_cons, hbeq, heqK, hK, he]
      · have heqK : (e.1 == K) = false := by simpa using heK
        simp only [List.map_cons, hbeq, if_false, Bool.false_eq_true, lookupAcc,
          List.find?_cons, heqK]
        exact ih

theorem lookupAcc_append (m : List (String × SAcc)) (e : String × SAcc) (K : String) :
    lookupAcc (m ++ [e]) K =
      match lookupAcc m K with
      | some a => some a
      | none => if e.1 = K then some e.2 else none := by
  induction m with
  | nil =>
    by_cases h : e.1 = K
    · have : (e.1 == K) = true := by simpa using h
      simp [lookupAcc, List.find?_cons, this, h]
    · have : (e.1 == K) = false := by simpa using h
      simp [lookupAcc, List.find?_cons, this, h]
  | cons f m ih =>
    by_cases h : f.1 = K
    · have : (f.1 == K) = true := by simpa using h
      simp [lookupAcc, List.find?_cons, this]
    · have hfb : (f.1 == K) = false := by simpa using h
      simp only [List.cons_append, lookupAcc, List.find?_cons, hfb]
      exact ih

/-- The lookup behaviour of one `listSources` loop iteration. -/
theorem lookupAcc_listStep (m : List (String × SAcc)) (r : MetaRec) (K : String) :
    lookupAcc (listStep m r) K =
      if getBaseUrl r.url = K then
        some (match lookupAcc m K with
              | some a => accAdd a r
              | none => accOf r)
      else lookupAcc m K := by
  rw [listStep]
  cases hany : m.any (fun e => e.1 == getBaseUrl r.url) with
  | true =>
    rw [if_pos rfl]
    rw [lookupAcc_map_update m r (getBaseUrl r.url) K]
    by_cases hK : getBaseUrl r.url = K
    · rw [if_pos hK, if_pos hK]
      rw [any_key_eq_isSome, hK] at hany
      cases hsome : lookupAcc m K with
      | none => rw [hsome] at hany; simp at hany
      | some a => simp [accAdd]
    · rw [if_neg hK, if_neg hK]
  | false =>
    rw [if_neg (by simp [hany])]
    have hnone : lookupAcc m (getBaseUrl r.url) = none := by
      rw [any_key_eq_isSome] at hany
      cases h : lookupAcc m (getBaseUrl r.url) with
      | none => rfl
      | some a => rw [h] at hany; simp at hany
    rw [lookupAcc_map_update
      (m ++ [(getBaseUrl r.url, (⟨r.title, [], 0, r.indexedAt⟩ : SAcc))]) r
      (getBaseUrl r.url) K]
    by_cases hK : getBaseUrl r.url = K
    · rw [if_pos hK, if_pos hK]
      rw [lookupAcc_append]
      rw [hK] at hnone
      rw [hnone]
      dsimp only
      rw [if_pos hK]
      simp [accOf, accAdd, insertSet]
    · rw [if_neg hK, if_neg hK]
      rw [lookupAcc_append]
      cases h : lookupAcc m K with
      | some a => rfl
      | none =>
        dsimp only
        rw [if_neg hK]

/-- Lookup after folding a record list into the source map. -/
theorem lookupAcc_foldl (K : String) :
    ∀ (L : List MetaRec) (m : List (String × SAcc)),
      lookupAcc (L.foldl listStep m) K =
        match lookupAcc m K, L.filter (fun r => getBaseUrl r.url == K) with
        | some a, F => some (F.foldl accAdd a)
        | none, [] => none
        | none, r :: rs => some (rs.foldl accAdd (accOf r)) := by
  intro L
  induction L with
  | nil => intro m; cases h : lookupAcc m K <;> simp [h]
  | cons r L ih =>
    intro m
    rw [List.foldl_cons, ih (listStep m r), lookupAcc_listStep]
    by_cases hb : getBaseUrl r.url = K
    · have hfb : (getBaseUrl r.url == K) = true := by simpa using hb
      rw [if_pos hb]
      cases hm : lookupAcc m K with
      | some a => simp [List.filter_cons, hfb]
      | none => simp [List.filter_cons, hfb]
    · have hfb : (getBaseUrl r.url == K) = false := by simpa using hb
      rw [if_neg hb]
      simp only [List.filter_cons, hfb, Bool.false_eq_true, if_false]

theorem listStep_keys_nodup (m : List (String × SAcc)) (r : MetaRec)
    (h : (m.map (fun e => e.1)).Nodup) : ((listStep m r).map (fun e => e.1)).Nodup := by
  rw [listStep]
  have hmapkeys : ∀ (mm : List (String × SAcc)),
      ((mm.map (fun e =>
        if e.1 == getBaseUrl r.url then
          (e.1, (⟨e.2.title, insertSet e.2.pageUrls r.url, e.2.chunkCount + 1,
            e.2.indexedAt⟩ : SAcc))
        else e)).map (fun e => e.1)) = mm.map (fun e => e.1) := by
    intro mm
    rw [List.map_map]
    apply List.map_congr_left
    intro e _
    by_cases hc : e.1 = getBaseUrl r.url <;> simp [hc]
  cases hany : m.any (fun e => e.1 == getBaseUrl r.url) with
  | true =>
    rw [if_pos rfl, hmapkeys]
    exact h
  | false =>
    rw [if_neg Bool.false_ne_true, hmapkeys, List.map_append, List.nodup_append]
    refine ⟨h, List.nodup_singleton _, ?_⟩
    intro a ha hb
    simp only [List.map_cons, List.map_nil, List.mem_singleton] at hb
    subst hb
    obtain ⟨e, he, hek⟩ := List.mem_map.mp ha
    have : m.any (fun e => e.1 == getBaseUrl r.url) = true :=
      List.any_eq_true.mpr ⟨e, he, by rw [hek]; simp⟩
    rw [hany] at this
    exact absurd this (by decide)

theorem foldl_listStep_keys_nodup :
    ∀ (L : List MetaRec) (m : List (String × SAcc)),
      (m.map (fun e => e.1)).Nodup → ((L.foldl listStep m).map (fun e => e.1)).Nodup := by
  intro L
  induction L with
  | nil => intro m h; exact h
  | cons r L ih => intro m h; exact ih (listStep m r) (listStep_keys_nodup m r h)

theorem lookupAcc_of_mem (m : List (String × SAcc)) (e : String × SAcc)
    (hnd : (m.map (fun x => x.1)).Nodup) (he : e ∈ m) : lookupAcc m e.1 = some e.2 := by
  induction m with
  | nil => simp at he
  | cons f m ih =>
    rcases List.mem_cons.mp he with rfl | he'
    · simp [lookupAcc, List.find?_cons]
    · have hne : ¬ f.1 = e.1 := by
        intro hcon
        rw [List.map_cons, List.nodup_cons] at hnd
        exact hnd.1 (hcon ▸ List.mem_map_of_mem (fun x => x.1) he')
      have hbeq : (f.1 == e.1) = false := by simpa using hne
      rw [lookupAcc, List.find?_cons, hbeq]
      exact ih (by rw [List.map_cons, List.nodup_cons] at hnd; exact hnd.2) he'

theorem foldl_accAdd_title : ∀ (rs : List MetaRec) (a : SAcc),
    (rs.foldl accAdd a).title = a.title := by
  intro rs
  induction rs with
  | nil => intro a; rfl
  | cons r rs ih => intro a; rw [List.foldl_cons, ih]; rfl

theorem foldl_accAdd_indexedAt : ∀ (rs : List MetaRec) (a : SAcc),
    (rs.foldl accAdd a).indexedAt = a.indexedAt := by
  intro rs
  induction rs with
  | nil => intro a; rfl
  | cons r rs ih => intro a; rw [List.foldl_cons, ih]; rfl

theorem foldl_accAdd_chunkCount : ∀ (rs : List MetaRec) (a : SAcc),
    (rs.foldl accAdd a).chunkCount = a.chunkCount + rs.length := by
  intro rs
  induction rs with
  | nil => intro a; rfl
  | cons r rs ih =>
    intro a
    rw [List.foldl_cons, ih]
    simp [accAdd]
    omega

theorem foldl_accAdd_pageUrls : ∀ (rs : List MetaRec) (a : SAcc),
    (rs.foldl accAdd a).pageUrls = (rs.map (fun r => r.url)).foldl insertSet a.pageUrls := by
  intro rs
  induction rs with
  | nil => intro a; rfl
  | cons r rs ih => intro a; rw [List.foldl_cons, ih, List.map_cons, List.foldl_cons]; rfl

theorem mem_foldl_insertSet : ∀ (us s : List String) (x : String),
    x ∈ us.foldl insertSet s ↔ x ∈ s ∨ x ∈ us := by
  intro us
  induction us with
  | nil => simp
  | cons u us ih =>
    intro s x
    rw [List.foldl_cons, ih, insertSet]
    by_cases hc : s.contains u
    · rw [if_pos hc]
      simp only [List.mem_cons]
      constructor
      · rintro (h | h)
        · exact Or.inl h
        · exact Or.inr (Or.inr h)
      · rintro (h | rfl | h)
        · exact Or.inl h
        · exact Or.inl (by simpa using hc)
        · exact Or.inr h
    · rw [if_neg hc]
      simp only [List.mem_append, List.mem_singleton, List.mem_cons]
      tauto

theorem nodup_foldl_insertSet : ∀ (us s : List String), s.Nodup →
    (us.foldl insertSet s).Nodup := by
  intro us
  induction us with
  | nil => intro s h; exact h
  | cons u us ih =>
    intro s h
    rw [List.foldl_cons]
    apply ih
    rw [insertSet]
    by_cases hc : s.contains u
    · rw [if_pos hc]; exact h
    · rw [if_neg hc]
      rw [List.nodup_append]
      refine ⟨h, List.nodup_singleton _, ?_⟩
      intro a ha hb
      rw [List.mem_singleton] at hb
      subst hb
      have hnotmem : a ∉ s := by simpa using hc
      exact hnotmem ha

theorem length_foldl_insertSet (us : List String) :
    (us.foldl insertSet []).length = us.toFinset.card := by
  have h1 : (us.foldl insertSet []).Nodup := nodup_foldl_insertSet us [] List.nodup_nil
  have h2 : (us.foldl insertSet []).toFinset = us.toFinset := by
    apply Finset.ext
    intro x
    simp only [List.mem_toFinset]
    rw [mem_foldl_insertSet]
    simp
  rw [← h2, List.toFinset_card_of_nodup h1]

theorem find?_eq_head_of_filter (p : α → Bool) :
    ∀ (l : List α) (r : α) (rs : List α), l.filter p = r :: rs → l.find? p = some r := by
  intro l
  induction l with
  | nil => intro r rs h; simp at h
  | cons a l ih =>
    intro r rs h
    rw [List.filter_cons] at h
    cases hp : p a with
    | true =>
      rw [hp, if_pos rfl] at h
      injection h with h1 _
      simp only [List.find?_cons, hp]
      rw [h1]
    | false =>
      rw [hp] at h
      simp only [Bool.false_eq_true, if_false] at h
      simp only [List.find?_cons, hp]
      exact ih r rs h

/-! ### C9 -/

def metaColl9 : List MetaRec :=
  [⟨"http://a/p1", "T1", "2024-01-01"⟩, ⟨"http://a/p2", "T2", "2024-02-02"⟩]

/-- Counterexample to C9 as stated: for two records of the same base whose
`indexedAt` values differ, `listSources` reports the base's `indexedAt` as
the FIRST value seen in scan order (`2024-01-01`), not the most recently
seen one (`2024-02-02`): the entry's `indexedAt` is set when the base is
first inserted and never updated. -/
theorem listSources_indexedAt_counterexample :
    (listSources 2 metaColl9).map (fun s => s.indexedAt) = ["2024-01-01"]
    ∧ (metaColl9.map (fun r => r.indexedAt)).getLast? = some "2024-02-02"
    ∧ ("2024-01-01" : String) ≠ "2024-02-02" := by decide

/-- Claim C9 (amended). For every collection state (given fuel covering the
scan), `listSources` returns exactly one `SourceInfo` per distinct base URL
(`scheme://host` of the stored url): the reported urls are distinct and are
exactly the bases occurring in the collection, and each entry's `chunkCount`
is the number of stored records under that base, `pageCount` the number of
distinct page URLs under it, while `title` and `indexedAt` are taken from
the FIRST record of that base in scan order (not the most recent). -/
theorem listSources_spec :
    ∀ (l : List MetaRec) (fuel : Nat), l.length < fuel →
      ((listSources fuel l).map (fun s => s.url)).Nodup
      ∧ (∀ K : String, (∃ s ∈ listSources fuel l, s.url = K) ↔
          K ∈ l.map (fun r => getBaseUrl r.url))
      ∧ (∀ s ∈ listSources fuel l, ∃ first : MetaRec,
          l.find? (fun r => getBaseUrl r.url == s.url) = some first
          ∧ s.title = first.title
          ∧ s.indexedAt = first.indexedAt
          ∧ s.chunkCount = (l.filter (fun r => getBaseUrl r.url == s.url)).length
          ∧ s.pageCount = ((l.filter (fun r => getBaseUrl r.url == s.url)).map
              (fun r => r.url)).toFinset.card) := by
  intro l fuel hf
  have hloop : listLoop fuel l 0 [] = l.foldl listStep [] := by
    have h := listLoop_eq_foldl fuel l 0 [] (by omega)
    simpa using h
  have hkeys : ((l.foldl listStep []).map (fun e => e.1)).Nodup :=
    foldl_listStep_keys_nodup l [] (by simp)
  have hout : listSources fuel l = (l.foldl listStep []).map toSourceInfo := by
    rw [listSources, hloop]
  have hlookup : ∀ K, lookupAcc (l.foldl listStep []) K =
      match l.filter (fun r => getBaseUrl r.url == K) with
      | [] => none
      | r :: rs => some (rs.foldl accAdd (accOf r)) := by
    intro K
    rw [lookupAcc_foldl K l []]
    cases hfil : l.filter (fun r => getBaseUrl r.url == K) with
    | nil => rfl
    | cons r rs => rfl
  refine ⟨?_, ?_, ?_⟩
  · rw [hout, List.map_map]
    exact hkeys
  · intro K
    constructor
    · rintro ⟨s, hs, rfl⟩
      rw [hout] at hs
      obtain ⟨e, heM, rfl⟩ := List.mem_map.mp hs
      have hsome : lookupAcc (l.foldl listStep []) e.1 = some e.2 :=
        lookupAcc_of_mem _ e hkeys heM
      rw [hlookup] at hsome
      cases hfil : l.filter (fun r => getBaseUrl r.url == e.1) with
      | nil => rw [hfil] at hsome; simp at hsome
      | cons r rs =>
        have hr := List.mem_filter.mp (hfil ▸ List.mem_cons_self r rs)
        exact List.mem_map.mpr ⟨r, hr.1, by simpa using hr.2⟩
    · intro hK
      obtain ⟨r, hrl, hrK⟩ := List.mem_map.mp hK
      have hrfil : r ∈ l.filter (fun x => getBaseUrl x.url == K) :=
        List.mem_filter.mpr ⟨hrl, by simpa using hrK⟩
      cases hfil : l.filter (fun x => getBaseUrl x.url == K) with
      | nil => rw [hfil] at hrfil; simp at hrfil
      | cons r0 rs0 =>
        have hsome : lookupAcc (l.foldl listStep []) K =
            some (rs0.foldl accAdd (accOf r0)) := by
          rw [hlookup, hfil]
        obtain ⟨e, hefind⟩ : ∃ e, (l.foldl listStep []).find? (fun x => x.1 == K) = some e := by
          rw [lookupAcc] at hsome
          cases hfind : (l.foldl listStep []).find? (fun x => x.1 == K) with
          | none => rw [hfind] at hsome; simp at hsome
          | some e => exact ⟨e, rfl⟩
        have heK : e.1 = K := by simpa using List.find?_some hefind
        have heM : e ∈ l.foldl listStep [] := List.mem_of_find?_eq_some hefind
        have hmem2 : toSourceInfo e ∈ listSources fuel l := by
          rw [hout]
          exact List.mem_map_of_mem toSourceInfo heM
        exact ⟨toSourceInfo e, hmem2, heK⟩
  · intro s hs
    rw [hout] at hs
    obtain ⟨e, heM, rfl⟩ := List.mem_map.mp hs
    have hsome : lookupAcc (l.foldl listStep []) e.1 = some e.2 :=
      lookupAcc_of_mem _ e hkeys heM
    rw [hlookup] at hsome
    cases hfil : l.filter (fun r => getBaseUrl r.url == e.1) with
    | nil => rw [hfil] at hsome; simp at hsome
    | cons r rs =>
      rw [hfil] at hsome
      have he2 : e.2 = rs.foldl accAdd (accOf r) := by
        injection hsome with h
        exact h.symm
      refine ⟨r, find?_eq_head_of_filter _ l r rs hfil, ?_, ?_, ?_, ?_⟩
      · show e.2.title = r.title
        rw [he2, foldl_accAdd_title]
        rfl
      · show e.2.indexedAt = r.indexedAt
        rw [he2, foldl_accAdd_indexedAt]
        rfl
      · show e.2.chunkCount = (l.filter (fun x => getBaseUrl x.url == e.1)).length
        rw [he2, foldl_accAdd_chunkCount, hfil]
        simp [accOf, accAdd]
        omega
      · show e.2.pageUrls.length = ((l.filter (fun x => getBaseUrl x.url == e.1)).map
            (fun r => r.url)).toFinset.card
        rw [he2, foldl_accAdd_pageUrls, hfil]
        have hl := length_foldl_insertSet (r.url :: rs.map (fun x => x.url))
        rw [List.map_cons, ← hl]
        rfl

/-- Witness for C9's amended statement at a concrete collection. -/
theorem listSources_spec_witness :
    ((listSources 3 metaColl9).map (fun s => s.url)).Nodup :=
  (listSources_spec metaColl9 3 (by decide)).1

/-! ## Tool entry points (`src/tools/crawl.ts`, `search.ts`, `delete.ts`)

Backends are oracles returning `Except String α`: `.error msg` models a
thrown exception with message `msg` (the `error.message` the handlers read).
An entry point of type `Except String R` propagates an exception to its
caller exactly when it evaluates to `.error`. -/

structure CrawlAndIndexResult where
  success : Bool
  pagesIndexed : Nat
  chunksCreated : Nat
  url : String
  error : Option String
deriving Repr, DecidableEq

structure SearchDocsResult where
  results : List SearchResult
  query : String
  totalResults : Nat
  error : Option String
deriving Repr, DecidableEq

structure DeleteSourceResult where
  success : Bool
  deletedChunks : Nat
  url : String
  error : Option String
deriving Repr, DecidableEq

structure ListSourcesResult where
  sources : List SourceInfo
  totalSources : Nat
deriving Repr, DecidableEq

/-- Model of `try { ... } catch (error) { handler(error.message) }`. -/
def tryCatch (x : Except String α) (h : String → α) : α :=
  match x with
  | .ok a => a
  | .error e => h e

def isOkE (x : Except String α) : Bool :=
  match x with
  | .ok _ => true
  | .error _ => false

structure CrawlBackend where
  ensureModelAvailable : Except String Bool
  crawlWebsite : String → Nat → Except String (List CrawledPage)
  addChunks : List Chunk → Except String Nat

structure CrawlAndIndexInput where
  url : String
  max_depth : Option Int

def crawlErrResult (url msg : String) : CrawlAndIndexResult :=
  { success := false, pagesIndexed := 0, chunksCreated := 0, url := url, error := some msg }

/-- The body of `crawlAndIndex`'s `try` block. `new URL(url)` throwing is
modelled as `throw "Invalid URL"` (a `TypeError` caught by the outer catch). -/
def crawlAndIndexInner (be : CrawlBackend) (url : String) (effectiveMaxDepth : Nat) :
    Except String CrawlAndIndexResult := do
  match parseURL url with
  | none => throw "Invalid URL"
  | some parsedUrl =>
    if ¬ (parsedUrl.scheme = "http" ∨ parsedUrl.scheme = "https") then
      return crawlErrResult url "Invalid URL: must use http or https protocol"
    else do
      let modelReady ← be.ensureModelAvailable
      if !modelReady then
        return crawlErrResult url "Embedding model not available. Is Ollama running?"
      else do
        let pages ← be.crawlWebsite url effectiveMaxDepth
        if pages.length = 0 then
          return crawlErrResult url "No pages found to index"
        else do
          let chunks := chunkPages pages {}
          let addedCount ← be.addChunks chunks
          return { success := true, pagesIndexed := pages.length,
                   chunksCreated := addedCount, url := url, error := none }

/-- Model of `crawlAndIndex` (crawl.ts): `max_depth` validation happens before the
`try`; everything else is inside it, caught into an error result. -/
def crawlAndIndex (be : CrawlBackend) (input : CrawlAndIndexInput) :
    Except String CrawlAndIndexResult :=
  match input.max_depth with
  | some d =>
    if d < 0 then .ok (crawlErrResult input.url "max_depth must be a non-negative integer")
    else .ok (tryCatch (crawlAndIndexInner be input.url d.toNat) (crawlErrResult input.url))
  | none => .ok (tryCatch (crawlAndIndexInner be input.url 2) (crawlErrResult input.url))

structure SearchBackend where
  searchSimilar : String → Int → Bool → Bool → Except String (List SearchResult)

structure SearchDocsInput where
  query : String
  top_k : Option Int
  hybrid : Option Bool
  expand_query : Option Bool

/-- Model of `searchDocs` (search.ts). There is no try/catch here: a throwing
`searchSimilar` propagates. -/
def searchDocs (be : SearchBackend) (input : SearchDocsInput) :
    Except String SearchDocsResult :=
  let trimmedQuery := jsTrim input.query
  if trimmedQuery.length > MAX_QUERY_LENGTH then
    .ok { results := [], query := strTake trimmedQuery 100 ++ "...", totalResults := 0,
          error := some ("Query exceeds maximum length of " ++ toString MAX_QUERY_LENGTH
            ++ " characters") }
  else if trimmedQuery = "" then
    .ok { results := [], query := "", totalResults := 0, error := none }
  else do
    let validatedTopK := min (max 1 (input.top_k.getD 5)) MAX_TOP_K
    let results ← be.searchSimilar trimmedQuery validatedTopK (input.hybrid.getD true)
      (input.expand_query.getD false)
    return { results := results, query := trimmedQuery, totalResults := results.length,
             error := none }

structure ListBackend where
  listSources : Except String (List SourceInfo)

/-- Model of `listIndexedSources` (search.ts). No try/catch: store errors propagate. -/
def listIndexedSources (be : ListBackend) : Except String ListSourcesResult := do
  let sources ← be.listSources
  return { sources := sources, totalSources := sources.length }

structure DeleteBackend where
  deleteByUrl : String → Except String Nat

structure DeleteSourceInput where
  url : String

/-- The body of `deleteSource`'s `try` block. -/
def deleteSourceInner (be : DeleteBackend) (url : String) :
    Except String DeleteSourceResult := do
  match parseURL url with
  | none => throw "Invalid URL"
  | some _ => do
    let deletedCount ← be.deleteByUrl url
    if deletedCount = 0 then
      return { success := false, deletedChunks := 0, url := url,
               error := some "No documents found matching this URL" }
    else
      return { success := true, deletedChunks := deletedCount, url := url, error := none }

/-- Model of `deleteSource` (delete.ts): fully wrapped in try/catch. -/
def deleteSource (be : DeleteBackend) (input : DeleteSourceInput) :
    Except String DeleteSourceResult :=
  .ok (tryCatch (deleteSourceInner be input.url) (fun msg =>
    { success := false, deletedChunks := 0, url := input.url, error := some msg }))

/-! ### C7 -/

def failingSearchBE : SearchBackend := ⟨fun _ _ _ _ => .error "backend down"⟩

/-- Counterexample to C7 as stated: `searchDocs` has no try/catch, so a
throwing `searchSimilar` backend propagates its exception to the caller
instead of producing a result object. -/
theorem searchDocs_propagates_counterexample :
    searchDocs failingSearchBE ⟨"hello", none, none, none⟩ =
      Except.error "backend down" := rfl

/-- Claim C7 (amended). `crawlAndIndex` and `deleteSource` always return a
well-formed result object, for every input and backend behavior, never
propagating an exception; `searchDocs` and `listIndexedSources` return a
well-formed result whenever their backend call succeeds, but — having no
try/catch — each propagates a thrown backend exception to the caller
(shown both as a concrete throwing search backend and as the general
propagation law for `listIndexedSources` and for `searchDocs` on any
non-empty, length-valid query). -/
theorem entry_points_no_throw :
    (∀ (be : CrawlBackend) (input : CrawlAndIndexInput),
      isOkE (crawlAndIndex be input) = true)
    ∧ (∀ (be : DeleteBackend) (input : DeleteSourceInput),
      isOkE (deleteSource be input) = true)
    ∧ (∀ (be : SearchBackend) (input : SearchDocsInput) (r : List SearchResult),
      be.searchSimilar (jsTrim input.query)
          (min (max 1 (input.top_k.getD 5)) MAX_TOP_K)
          (input.hybrid.getD true) (input.expand_query.getD false) = .ok r →
      isOkE (searchDocs be input) = true)
    ∧ (∀ (be : ListBackend) (s : List SourceInfo),
      be.listSources = .ok s → isOkE (listIndexedSources be) = true)
    ∧ (∃ (be : SearchBackend) (input : SearchDocsInput),
      isOkE (searchDocs be input) = false)
    ∧ (∀ (be : ListBackend) (e : String),
      be.listSources = .error e → listIndexedSources be = .error e)
    ∧ (∀ (be : SearchBackend) (input : SearchDocsInput) (e : String),
      ¬ (jsTrim input.query).length > MAX_QUERY_LENGTH → ¬ jsTrim input.query = "" →
      be.searchSimilar (jsTrim input.query)
          (min (max 1 (input.top_k.getD 5)) MAX_TOP_K)
          (input.hybrid.getD true) (input.expand_query.getD false) = .error e →
      searchDocs be input = .error e) := by
  refine ⟨?_, ?_, ?_, ?_, ?_, ?_, ?_⟩
  · intro be input
    rw [crawlAndIndex]
    cases input.max_depth with
    | none => rfl
    | some d =>
      dsimp only
      by_cases hd : d < 0
      · rw [if_pos hd]; rfl
      · rw [if_neg hd]; rfl
  · intro be input
    rfl
  · intro be input r hok
    rw [searchDocs]
    by_cases h1 : (jsTrim input.query).length > MAX_QUERY_LENGTH
    · rw [if_pos h1]; rfl
    · rw [if_neg h1]
      by_cases h2 : jsTrim input.query = ""
      · rw [if_pos h2]; rfl
      · rw [if_neg h2]
        simp only [bind, Except.bind, hok]
        rfl
  · intro be s hok
    rw [listIndexedSources]
    simp only [bind, Except.bind, hok]
    rfl
  · exact ⟨failingSearchBE, ⟨"hello", none, none, none⟩, rfl⟩
  · intro be e herr
    rw [listIndexedSources]
    simp only [bind, Except.bind, herr]
  · intro be input e h1 h2 herr
    rw [searchDocs, if_neg h1, if_neg h2]
    simp only [bind, Except.bind, herr]

def okSearchBE : SearchBackend := ⟨fun _ _ _ _ => .ok []⟩

/-- Witness for C7's amended statement: an always-succeeding search backend. -/
theorem entry_points_no_throw_witness :
    isOkE (searchDocs okSearchBE ⟨"hello docs", none, none, none⟩) = true :=
  entry_points_no_throw.2.2.1 okSearchBE ⟨"hello docs", none, none, none⟩ [] rfl

/-! ### C8 -/

/-- Counterexample to C8 as stated: for a blank query, `searchDocs` returns
an empty result object with NO error field at all (and `SearchDocsResult`
has no `success` field), rather than `success:false` with a descriptive
error as the claim demands. -/
theorem searchDocs_empty_query_counterexample :
    searchDocs okSearchBE ⟨" ", none, none, none⟩ =
      Except.ok { results := [], query := "", totalResults := 0, error := none } := by
  rfl

/-- Claim C8 (amended). A crawl that indexes zero pages and a delete that
removes zero documents are reported as `success := false` with a descriptive
non-empty error, not as exceptions; a search whose trimmed query is empty is
reported as an empty result object with `query := ""` and no error field
(not as an exception, and without the `success:false`/error shape the
original claim asserts). -/
theorem empty_result_reporting :
    (∀ (be : CrawlBackend) (url : String) (u : ParsedURL),
      parseURL url = some u → (u.scheme = "http" ∨ u.scheme = "https") →
      be.ensureModelAvailable = .ok true → be.crawlWebsite url 2 = .ok [] →
      crawlAndIndex be ⟨url, none⟩ =
        .ok { success := false, pagesIndexed := 0, chunksCreated := 0, url := url,
              error := some "No pages found to index" })
    ∧ (∀ (be : DeleteBackend) (url : String) (u : ParsedURL),
      parseURL url = some u → be.deleteByUrl url = .ok 0 →
      deleteSource be ⟨url⟩ =
        .ok ⟨false, 0, url, some "No documents found matching this URL"⟩)
    ∧ (∀ (be : SearchBackend) (input : SearchDocsInput),
      jsTrim input.query = "" →
      searchDocs be input =
        .ok { results := [], query := "", totalResults := 0, error := none }) := by
  refine ⟨?_, ?_, ?_⟩
  · intro be url u hparse hscheme hmodel hcrawl
    rw [crawlAndIndex]
    have hinner : crawlAndIndexInner be url 2 =
        .ok (crawlErrResult url "No pages found to index") := by
      rw [crawlAndIndexInner, hparse]
      dsimp only
      rw [if_neg (not_not_intro hscheme)]
      simp only [bind, Except.bind, hmodel, hcrawl]
      rfl
    simp only [hinner]
    rfl
  · intro be url u hparse hdel
    rw [deleteSource]
    have hinner : deleteSourceInner be url =
        .ok { success := false, deletedChunks := 0, url := url,
              error := some "No documents found matching this URL" } := by
      rw [deleteSourceInner, hparse]
      dsimp only
      simp only [bind, Except.bind, hdel]
      rfl
    rw [hinner]
    rfl
  · intro be input hempty
    rw [searchDocs]
    have hlen : ¬ (jsTrim input.query).length > MAX_QUERY_LENGTH := by
      rw [hempty]
      decide
    rw [if_neg hlen, if_pos hempty]

/-- Witness for C8's amended statement: a delete backend that removes zero
documents for a concrete valid URL. -/
theorem empty_result_reporting_witness :
    deleteSource (⟨fun _ => .ok 0⟩ : DeleteBackend) ⟨"http://docs.example/x"⟩ =
      .ok ⟨false, 0, "http://docs.example/x",
        some "No documents found matching this URL"⟩ :=
  empty_result_reporting.2.1 ⟨fun _ => .ok 0⟩ "http://docs.example/x"
    ⟨"http", "docs.example", "", ""⟩ (by decide) rfl

end DRag
